import Mathlib

/-!
Verification of the Load-Balancer simulation.

The definitions below are a shallow embedding of the C++ sources:

* `Server`, `Server.setCurrentLoad`, `Server.getAvailableCapacity`,
  `Server.getEffectiveCapacity`, `Server.getLoadPercentage` embed the
  `Server` class of `src/load_balancer.cpp`;
* `LoadBalancer.distributeLoadRoundRobin`, `LoadBalancer.distributeLoadLeastLoaded`,
  `LoadBalancer.distributeLoadWeightedOptimization`, `LoadBalancer.addSystemLoad`,
  `LoadBalancer.rebalanceLoads`, `LoadBalancer.removeServer`,
  `LoadBalancer.addLoadToServer`, `LoadBalancer.calculateLoadVariance` embed the
  corresponding `LoadBalancer` member functions;
* the `Sim` namespace embeds the stand-alone simulator (the unnamed source file):
  `Sim.Server.utilizationRatio`, `Sim.LoadBalancer.distributeLoadLeastLoaded`,
  `Sim.LoadBalancer.distributeLoadOptimization`;
* `ServerHealth`, `updateServerState`, `degradeServerPerformance` embed
  `server_health.cpp`.

C++ `int` values are modelled as `Int` (overflow is out of scope for the
inputs considered), `double` values as `Rat`, and `static_cast<int>` on a
non-negative `double` as truncation toward zero (`ratTrunc`).  Console
output and the `status` string of a server are not modelled; where a
function reports an undistributed amount (or returns after reporting that
nothing can be distributed), the model returns that amount as the second
component of its result, and returns `0` on paths where the code reports
nothing.  Mutation through `shared_ptr` is modelled by functional update of
the server list.
-/

/-- Truncation of a rational toward zero, the semantics of C++
`static_cast<int>` applied to a (finite) `double`. -/
def ratTrunc (q : Rat) : Int :=
  Int.tdiv q.num (q.den : Int)

/-- The `Server` class of `load_balancer.cpp` (the `status` display string
is not modelled). -/
structure Server where
  id : Int
  capacity : Int
  currentLoad : Int
  performanceMultiplier : Rat
  online : Bool
deriving DecidableEq, Repr, Inhabited

namespace Server

/-- `Server::setCurrentLoad`: assigns the load, clamping negative values to 0. -/
def setCurrentLoad (s : Server) (load : Int) : Server :=
  { s with currentLoad := if load < 0 then 0 else load }

/-- `Server::getAvailableCapacity`: 0 when offline, else `capacity - currentLoad`. -/
def getAvailableCapacity (s : Server) : Int :=
  if !s.online then 0 else s.capacity - s.currentLoad

/-- `Server::getEffectiveCapacity`: 0 when offline, else `capacity * performanceMultiplier`. -/
def getEffectiveCapacity (s : Server) : Rat :=
  if !s.online then 0 else (s.capacity : Rat) * s.performanceMultiplier

/-- `Server::getLoadPercentage`: 0 when `capacity == 0`, else `currentLoad / capacity * 100`. -/
def getLoadPercentage (s : Server) : Rat :=
  if s.capacity = 0 then 0 else ((s.currentLoad : Rat) / (s.capacity : Rat)) * 100

end Server

namespace LoadBalancer

/-- `LoadBalancer::getTotalLoad`: sum of all servers' current loads. -/
def getTotalLoad (ss : List Server) : Int :=
  (ss.map (·.currentLoad)).sum

/-- `LoadBalancer::getTotalCapacity`: sum of the capacities of the online servers. -/
def getTotalCapacity (ss : List Server) : Int :=
  (ss.map (fun s => if s.online then s.capacity else 0)).sum

/-- One iteration of the distribution loop of
`LoadBalancer::distributeLoadRoundRobin`: visit position
`(startIdx + i) % n`; an online server there receives the base load plus
one remainder unit while remainder units are left. -/
def rrStep (startIdx n : Nat) (base : Int) (acc : List Server × Int) (i : Nat) :
    List Server × Int :=
  let idx := (startIdx + i) % n
  match acc.1[idx]? with
  | none => acc
  | some s =>
    if s.online then
      let serverLoad := base + (if 0 < acc.2 then 1 else 0)
      let rem := if 0 < acc.2 then acc.2 - 1 else acc.2
      (acc.1.set idx (s.setCurrentLoad (s.currentLoad + serverLoad)), rem)
    else acc

/-- `LoadBalancer::distributeLoadRoundRobin`.  The second component of the
result is the amount the code reports as not distributed: the whole amount
on the early-return paths (no servers / no online server), and `0` on the
normal path, where the code prints no warning. -/
def distributeLoadRoundRobin (ss : List Server) (loadAmount : Int) :
    List Server × Int :=
  if ss.isEmpty then (ss, loadAmount)
  else
    match ss.findIdx? (·.online) with
    | none => (ss, loadAmount)
    | some startIdx =>
      let n := ss.length
      let base := Int.tdiv loadAmount (n : Int)
      let rem := Int.tmod loadAmount (n : Int)
      (((List.range n).foldl (rrStep startIdx n base) (ss, rem)).1, 0)

/-- The selection scan of `LoadBalancer::distributeLoadLeastLoaded`: walk the
server list keeping the best (strictly larger available capacity wins, so the
first maximiser is kept), starting from `bestServer = nullptr`,
`bestAvailableCapacity = -1`. -/
def llScan (ss : List Server) : Option Nat × Int :=
  ss.enum.foldl
    (fun acc p =>
      if !p.2.online then acc
      else if p.2.getAvailableCapacity > acc.2 then (some p.1, p.2.getAvailableCapacity)
      else acc)
    (none, -1)

/-- The scan of `llScan` generalized over the position of the first server
and the starting accumulator; `llScan ss = llScanGo 0 (none, -1) ss`
(`llScan_eq_go`).  Used to reason about the selection by induction. -/
def llScanGo (k : Nat) (acc : Option Nat × Int) (ss : List Server) :
    Option Nat × Int :=
  (List.enumFrom k ss).foldl
    (fun acc p =>
      if !p.2.online then acc
      else if p.2.getAvailableCapacity > acc.2 then (some p.1, p.2.getAvailableCapacity)
      else acc)
    acc

/-- The `while (remainingLoad > 0)` loop of
`LoadBalancer::distributeLoadLeastLoaded`: assign
`min(remainingLoad, bestAvailableCapacity)` to the selected server; break
(reporting the remainder) when no online server exists or the best available
capacity is not positive.  Every iteration assigns at least one unit, so
the loop runs at most `remaining` times; it is embedded structurally on a
fuel argument instantiated with that bound (`llLoop_fuel_irrelevant` below
shows the fuel cut-off is never reached from the bound on). -/
def llLoop (ss : List Server) (remaining : Int) (fuel : Nat) : List Server × Int :=
  match fuel with
  | 0 => if 0 < remaining then (ss, remaining) else (ss, 0)
  | fuel + 1 =>
    if 0 < remaining then
      match llScan ss with
      | (none, _) => (ss, remaining)
      | (some i, bestAvail) =>
        if bestAvail ≤ 0 then (ss, remaining)
        else
          match ss[i]? with
          | none => (ss, remaining)
          | some s =>
            llLoop (ss.set i (s.setCurrentLoad (s.currentLoad + min remaining bestAvail)))
              (remaining - min remaining bestAvail) fuel
    else (ss, 0)

/-- `LoadBalancer::distributeLoadLeastLoaded`. -/
def distributeLoadLeastLoaded (ss : List Server) (loadAmount : Int) :
    List Server × Int :=
  if ss.isEmpty then (ss, loadAmount)
  else llLoop ss loadAmount loadAmount.toNat

/-- Everything of a server except its current load.  Distribution only
moves load around, so it preserves the frame of every server (used to
state and prove the rebalance and conservation lemmas). -/
def serverFrame (s : Server) : Int × Int × Rat × Bool :=
  (s.id, s.capacity, s.performanceMultiplier, s.online)

/-- Total available capacity over a server list (offline servers
contribute 0 through `getAvailableCapacity`). -/
def sumAvailable (ss : List Server) : Int :=
  (ss.map (·.getAvailableCapacity)).sum

/-- One inner step of the remainder loop of
`LoadBalancer::distributeLoadWeightedOptimization`: while the remainder is
positive, an online server at index `i` with head-room above its planned
ideal load receives one extra unit and the `distributed` flag is set. -/
def woPassStep (ss : List Server) (acc : List Int × Int × Bool) (i : Nat) :
    List Int × Int × Bool :=
  if 0 < acc.2.1 then
    match ss[i]?, acc.1[i]? with
    | some s, some d =>
      if !s.online then acc
      else if 0 < s.getAvailableCapacity - d then
        (acc.1.set i (d + 1), acc.2.1 - 1, true)
      else acc
    | _, _ => acc
  else acc

theorem woPassStep_cases (ss : List Server) (acc : List Int × Int × Bool) (i : Nat) :
    woPassStep ss acc i = acc ∨
      (0 < acc.2.1 ∧ (woPassStep ss acc i).2.1 = acc.2.1 - 1 ∧
        (woPassStep ss acc i).2.2 = true) := by
  unfold woPassStep
  split
  · split
    · rename_i hrem s d _
      split
      · exact Or.inl rfl
      · split
        · exact Or.inr ⟨by assumption, by simp, by simp⟩
        · exact Or.inl rfl
    · exact Or.inl rfl
  · exact Or.inl rfl

theorem woPass_le (ss : List Server) (L : List Nat) (acc : List Int × Int × Bool) :
    (L.foldl (woPassStep ss) acc).2.1 ≤ acc.2.1 := by
  induction L generalizing acc with
  | nil => simp
  | cons i rest ih =>
    simp only [List.foldl_cons]
    rcases woPassStep_cases ss acc i with h | ⟨hpos, hrem, _⟩
    · rw [h]; exact ih acc
    · have := ih (woPassStep ss acc i)
      omega

theorem woPass_flag_lt (ss : List Server) (L : List Nat) (acc : List Int × Int × Bool) :
    (L.foldl (woPassStep ss) acc).2.2 = true → acc.2.2 = false →
      (L.foldl (woPassStep ss) acc).2.1 < acc.2.1 := by
  induction L generalizing acc with
  | nil => intro h1 h2; simp only [List.foldl_nil] at h1; rw [h1] at h2; cases h2
  | cons i rest ih =>
    intro h1 h2
    simp only [List.foldl_cons] at h1 ⊢
    rcases woPassStep_cases ss acc i with h | ⟨hpos, hrem, _⟩
    · rw [h] at h1 ⊢; exact ih acc h1 h2
    · have := woPass_le ss rest (woPassStep ss acc i)
      omega

/-- The outer `while (remainingLoad > 0)` loop of
`LoadBalancer::distributeLoadWeightedOptimization`: run one full pass over
the servers; stop when the remainder is gone or a pass distributed nothing.
A pass that sets the `distributed` flag lowers the remainder by at least
one (`woPass_flag_lt`), so the loop runs at most `remaining` times; it is
embedded structurally on a fuel argument instantiated with that bound
(`woLoop_fuel_irrelevant` below shows the fuel cut-off is never reached
from the bound on). -/
def woLoop (ss : List Server) (ideals : List Int) (remaining : Int) (fuel : Nat) :
    List Int × Int :=
  match fuel with
  | 0 => (ideals, remaining)
  | fuel + 1 =>
    if 0 < remaining then
      let res := (List.range ss.length).foldl (woPassStep ss) (ideals, remaining, false)
      if res.2.2 = true then woLoop ss res.1 res.2.1 fuel
      else (res.1, res.2.1)
    else (ideals, remaining)

theorem llLoop_fuel_irrelevant :
    ∀ (fuel : Nat) (ss : List Server) (remaining : Int), remaining.toNat ≤ fuel →
      llLoop ss remaining (fuel + 1) = llLoop ss remaining fuel := by
  intro fuel
  induction fuel with
  | zero =>
    intro ss remaining h
    have hr : ¬ 0 < remaining := by omega
    simp only [llLoop]
    simp [hr]
  | succ fuel ih =>
    intro ss remaining h
    simp only [llLoop]
    by_cases hr : 0 < remaining
    · simp only [if_pos hr]
      rcases hscan : llScan ss with ⟨o, b⟩
      cases o with
      | none => rfl
      | some i =>
        by_cases hb : b ≤ 0
        · simp [hb]
        · simp only [if_neg hb]
          cases hs : ss[i]? with
          | none => rfl
          | some s =>
            have h1 : 1 ≤ min remaining b := le_min hr (by omega)
            exact ih _ _ (by omega)
    · simp [hr]

theorem woLoop_fuel_irrelevant :
    ∀ (fuel : Nat) (ss : List Server) (ideals : List Int) (remaining : Int),
      remaining.toNat ≤ fuel →
      woLoop ss ideals remaining (fuel + 1) = woLoop ss ideals remaining fuel := by
  intro fuel
  induction fuel with
  | zero =>
    intro ss ideals remaining h
    have hr : ¬ 0 < remaining := by omega
    simp only [woLoop]
    simp [hr]
  | succ fuel ih =>
    intro ss ideals remaining h
    simp only [woLoop]
    by_cases hr : 0 < remaining
    · simp only [if_pos hr]
      by_cases hd :
          ((List.range ss.length).foldl (woPassStep ss) (ideals, remaining, false)).2.2 = true
      · have hlt := woPass_flag_lt ss (List.range ss.length) (ideals, remaining, false) hd rfl
        simp only at hlt
        simp only [hd, if_true]
        exact ih _ _ _ (by omega)
      · simp [hd]
    · simp [hr]

/-- The `totalEffectiveCapacity` accumulation of
`LoadBalancer::distributeLoadWeightedOptimization`: effective capacities of
the online servers summed. -/
def totalEffectiveCapacity (ss : List Server) : Rat :=
  (ss.map (fun s => if s.online then s.getEffectiveCapacity else 0)).sum

/-- The `idealLoads` computation of
`LoadBalancer::distributeLoadWeightedOptimization`: 0 for an offline
server, otherwise the proportional share (truncated to `int`) capped at
the available capacity. -/
def woIdealLoads (ss : List Server) (loadAmount : Int) : List Int :=
  ss.map (fun s =>
    if !s.online then 0
    else
      let ideal := ratTrunc
        (s.getEffectiveCapacity / totalEffectiveCapacity ss * (loadAmount : Rat))
      if ideal > s.getAvailableCapacity then s.getAvailableCapacity else ideal)

/-- `LoadBalancer::distributeLoadWeightedOptimization`.  The second
component is the amount reported undistributed (the full amount on the
early-return paths, the final positive remainder otherwise). -/
def distributeLoadWeightedOptimization (ss : List Server) (loadAmount : Int) :
    List Server × Int :=
  if ss.isEmpty then (ss, loadAmount)
  else
    if totalEffectiveCapacity ss ≤ 0 then (ss, loadAmount)
    else
      let idealLoads := woIdealLoads ss loadAmount
      let res := woLoop ss idealLoads (loadAmount - idealLoads.sum)
        (loadAmount - idealLoads.sum).toNat
      let applied := List.zipWith
        (fun s d => if 0 < d then s.setCurrentLoad (s.currentLoad + d) else s) ss res.1
      (applied, if 0 < res.2 then res.2 else 0)

/-- Head-room of the remainder loop: available capacity minus planned ideal
load, summed over the servers (proof bookkeeping for the loop). -/
def sumHeadroom (ss : List Server) (ideals : List Int) : Int :=
  (List.zipWith (fun s d => s.getAvailableCapacity - d) ss ideals).sum

end LoadBalancer

namespace Sim

/-- The `Server` struct of the stand-alone simulator source (`double`
capacity and load, no online flag). -/
structure Server where
  id : Int
  capacity : Rat
  currentLoad : Rat
deriving DecidableEq, Repr, Inhabited

/-- `Server::utilizationRatio`: `currentLoad / capacity` guarded by
`capacity > 0`, else `0`. -/
def Server.utilizationRatio (s : Server) : Rat :=
  if 0 < s.capacity then s.currentLoad / s.capacity else 0

namespace LoadBalancer

/-- `LoadBalancer::distributeLoadLeastLoaded` of the stand-alone simulator:
the whole amount goes to the first server with the strictly smallest
utilization ratio.  The C++ scan starts from index 0 with the sentinel
`std::numeric_limits<double>::max()`, which every finite ratio beats, so
the scan is equivalently seeded with the ratio of the first server. -/
def distributeLoadLeastLoaded (ss : List Server) (newLoad : Rat) : List Server :=
  match ss with
  | [] => []
  | s0 :: _ =>
    let leastLoadedIdx := (ss.enum.foldl
      (fun acc p =>
        if p.2.utilizationRatio < acc.2 then (p.1, p.2.utilizationRatio) else acc)
      (0, s0.utilizationRatio)).1
    match ss[leastLoadedIdx]? with
    | none => ss
    | some s => ss.set leastLoadedIdx { s with currentLoad := s.currentLoad + newLoad }

/-- `LoadBalancer::distributeLoadOptimization` of the stand-alone simulator:
proportional allocation toward the system-wide target utilization over the
positive load differences, with fall-back to Least Loaded when no
difference is positive. -/
def distributeLoadOptimization (ss : List Server) (newLoad : Rat) : List Server :=
  if ss.isEmpty then ss
  else
    let totalCapacity := (ss.map (·.capacity)).sum
    let totalCurrentLoad := (ss.map (·.currentLoad)).sum
    let targetUtilization := (totalCurrentLoad + newLoad) / totalCapacity
    let loadDifferences := ss.map (fun s => targetUtilization * s.capacity - s.currentLoad)
    let totalPositiveDifference :=
      (loadDifferences.map (fun d => if 0 < d then d else 0)).sum
    if 0 < totalPositiveDifference then
      List.zipWith
        (fun s d =>
          if 0 < d then
            { s with currentLoad := s.currentLoad + newLoad * (d / totalPositiveDifference) }
          else s)
        ss loadDifferences
    else distributeLoadLeastLoaded ss newLoad

end LoadBalancer

end Sim

/-- The `ServerState` enumeration of `server_health.h`. -/
inductive ServerState where
  | HEALTHY
  | DEGRADED
  | CRITICAL
  | OFFLINE
deriving DecidableEq, Repr

/-- The per-server record of the health simulator (`ServerHealth`).
Timestamps are modelled as rational numbers of simulated seconds. -/
structure ServerHealth where
  serverId : Int
  state : ServerState
  healthScore : Rat
  failureProbability : Rat
  recoveryProbability : Rat
  performanceMultiplier : Rat
  lastStateChange : Rat
deriving DecidableEq, Repr

/-- The body of the per-server loop of
`ServerHealthSimulator::updateServerStates`: a record whose last state
change is less than 5 seconds old is skipped; otherwise one uniform draw
`rand` decides the (at most one) transition.  Observer callbacks only
forward the new state and multiplier and are not modelled. -/
def updateServerState (sh : ServerHealth) (now rand : Rat) : ServerHealth :=
  if now - sh.lastStateChange < 5 then sh
  else
    match sh.state with
    | .HEALTHY =>
      if rand < sh.failureProbability then
        { sh with state := .DEGRADED, healthScore := 7/10,
                  performanceMultiplier := 7/10, lastStateChange := now }
      else sh
    | .DEGRADED =>
      if rand < sh.recoveryProbability then
        { sh with state := .HEALTHY, healthScore := 1,
                  performanceMultiplier := 1, lastStateChange := now }
      else if rand > 1 - sh.failureProbability * 2 then
        { sh with state := .CRITICAL, healthScore := 3/10,
                  performanceMultiplier := 4/10, lastStateChange := now }
      else sh
    | .CRITICAL =>
      if rand < sh.recoveryProbability / 2 then
        { sh with state := .DEGRADED, healthScore := 6/10,
                  performanceMultiplier := 6/10, lastStateChange := now }
      else if rand > 1 - sh.failureProbability * 3 then
        { sh with state := .OFFLINE, healthScore := 0,
                  performanceMultiplier := 0, lastStateChange := now }
      else sh
    | .OFFLINE =>
      if rand < sh.recoveryProbability / 3 then
        { sh with state := .CRITICAL, healthScore := 2/10,
                  performanceMultiplier := 3/10, lastStateChange := now }
      else sh

/-- One row of the transition table of spec §4.2: source state, firing
condition (as a function of the drawn value and the record's failure and
recovery probabilities), target state, and the health score and
performance multiplier the transition installs. -/
structure TransitionRow where
  src : ServerState
  fires : Rat → Rat → Rat → Bool
  target : ServerState
  score : Rat
  mult : Rat

/-- The transition table of spec §4.2, in the listed order. -/
def healthTransitionTable : List TransitionRow :=
  [ ⟨.HEALTHY,  fun rand fp _  => rand < fp,          .DEGRADED, 7/10, 7/10⟩,
    ⟨.DEGRADED, fun rand _  rp => rand < rp,          .HEALTHY,  1,    1⟩,
    ⟨.DEGRADED, fun rand fp _  => rand > 1 - 2 * fp,  .CRITICAL, 3/10, 4/10⟩,
    ⟨.CRITICAL, fun rand _  rp => rand < rp / 2,      .DEGRADED, 6/10, 6/10⟩,
    ⟨.CRITICAL, fun rand fp _  => rand > 1 - 3 * fp,  .OFFLINE,  0,    0⟩,
    ⟨.OFFLINE,  fun rand _  rp => rand < rp / 3,      .CRITICAL, 2/10, 3/10⟩ ]

/-- Spec §4.2 evaluation of the table: among the rows for the record's
current state, in the listed order, only the first whose condition holds
fires; when no row fires the record is unchanged. -/
def applyHealthTable (sh : ServerHealth) (now rand : Rat) : ServerHealth :=
  match healthTransitionTable.find?
      (fun row => row.src == sh.state &&
        row.fires rand sh.failureProbability sh.recoveryProbability) with
  | none => sh
  | some row =>
    { sh with state := row.target, healthScore := row.score,
              performanceMultiplier := row.mult, lastStateChange := now }

/-- `ServerHealthSimulator::degradeServerPerformance`, body for a record
that exists and is not offline (the function is a no-op otherwise): clamp
the factor into `[0,1]`, scale the multiplier, then re-derive the state
from the result. -/
def degradeServerPerformance (sh : ServerHealth) (degradationFactor now : Rat) :
    ServerHealth :=
  if sh.state = .OFFLINE then sh
  else
    let f := max 0 (min 1 degradationFactor)
    let m := sh.performanceMultiplier * f
    if m < 1/10 then
      { sh with state := .OFFLINE, healthScore := 0,
                performanceMultiplier := 0, lastStateChange := now }
    else if m < 1/2 then
      { sh with state := .CRITICAL, healthScore := 3/10,
                performanceMultiplier := m, lastStateChange := now }
    else if m < 9/10 then
      { sh with state := .DEGRADED, healthScore := 7/10,
                performanceMultiplier := m, lastStateChange := now }
    else
      { sh with performanceMultiplier := m, lastStateChange := now }

/-- The state re-derivation thresholds stated in spec §4.2 for
`degradeServerPerformance`, written from the spec's words: from the
resulting multiplier, `<0.1` gives Offline, `<0.5` Critical, `<0.9`
Degraded, otherwise the state is unchanged. -/
def stateFromMultiplier (old : ServerState) (m : Rat) : ServerState :=
  if m < 1/10 then .OFFLINE
  else if m < 1/2 then .CRITICAL
  else if m < 9/10 then .DEGRADED
  else old

/-- The `BalancingAlgorithm` enumeration. -/
inductive BalancingAlgorithm where
  | ROUND_ROBIN
  | LEAST_LOADED
  | WEIGHTED_OPTIMIZATION
deriving DecidableEq, Repr

namespace LoadBalancer

/-- `LoadBalancer::addSystemLoad`: dispatch to the distribution routine of
the current algorithm (monitoring and display are not modelled). -/
def addSystemLoad (alg : BalancingAlgorithm) (ss : List Server) (loadAmount : Int) :
    List Server × Int :=
  match alg with
  | .ROUND_ROBIN => distributeLoadRoundRobin ss loadAmount
  | .LEAST_LOADED => distributeLoadLeastLoaded ss loadAmount
  | .WEIGHTED_OPTIMIZATION => distributeLoadWeightedOptimization ss loadAmount

/-- `LoadBalancer::rebalanceLoads`: record the total load, zero every
server's load, then replay the total through the current algorithm. -/
def rebalanceLoads (alg : BalancingAlgorithm) (ss : List Server) : List Server :=
  let totalLoad := getTotalLoad ss
  let zeroed := ss.map (fun s => s.setCurrentLoad 0)
  (addSystemLoad alg zeroed totalLoad).1

/-- `LoadBalancer::removeServer`: the first server whose id matches is
removed; its load, when positive and when servers remain, is re-injected
through the current algorithm.  Returns the new list and the `bool` result
of the member function (`false` when the id was not found). -/
def removeServer (alg : BalancingAlgorithm) (ss : List Server) (serverId : Int) :
    List Server × Bool :=
  match ss.findIdx? (fun s => s.id = serverId) with
  | none => (ss, false)
  | some i =>
    let loadToRedistribute := ((ss[i]?).getD default).currentLoad
    let remaining := ss.eraseIdx i
    if ¬remaining.isEmpty ∧ 0 < loadToRedistribute then
      ((addSystemLoad alg remaining loadToRedistribute).1, true)
    else (remaining, true)

/-- `LoadBalancer::addLoadToServer`: no-op when the id is unknown or the
server is offline; otherwise the amount is capped at the available capacity
before being added. -/
def addLoadToServer (ss : List Server) (serverId : Int) (loadAmount : Int) :
    List Server :=
  match ss.findIdx? (fun s => s.id = serverId) with
  | none => ss
  | some i =>
    let s := (ss[i]?).getD default
    if !s.online then ss
    else
      let availableCapacity := s.getAvailableCapacity
      let amount := if loadAmount > availableCapacity then availableCapacity else loadAmount
      ss.set i (s.setCurrentLoad (s.currentLoad + amount))

/-- `LoadBalancer::calculateLoadVariance`: population variance of the load
percentages of the online servers, `0` for an empty list or when no server
is online. -/
def calculateLoadVariance (ss : List Server) : Rat :=
  if ss.isEmpty then 0
  else
    let onl := ss.filter (·.online)
    let onlineCount := onl.length
    if onlineCount = 0 then 0
    else
      let meanPercentage := (onl.map Server.getLoadPercentage).sum / (onlineCount : Rat)
      (onl.map (fun s => (s.getLoadPercentage - meanPercentage) *
        (s.getLoadPercentage - meanPercentage))).sum / (onlineCount : Rat)

/-- The system load percentage computed in `LoadBalancer::visualizeLoads`:
`totalLoad / totalCapacity * 100` guarded by `totalCapacity > 0`. -/
def systemLoadPercentage (ss : List Server) : Rat :=
  if 0 < getTotalCapacity ss then
    ((getTotalLoad ss : Rat) / (getTotalCapacity ss : Rat)) * 100
  else 0

end LoadBalancer

/-! ## Claim theorems -/

attribute [local semireducible] Rat.mul Rat.add Rat.sub Rat.inv

/-- Counterexample to claim C1: distributing 10 units under Round Robin over
one online and one offline server adds only 5 units (the offline server's
base share is silently dropped and nothing is reported undistributed), so
the per-server increases plus the reported undistributed amount do not sum
to the requested load. -/
theorem c1_conservation_counterexample :
    LoadBalancer.getTotalLoad
        (LoadBalancer.distributeLoadRoundRobin
          [⟨1, 100, 0, 1, true⟩, ⟨2, 100, 0, 1, false⟩] 10).1 +
      (LoadBalancer.distributeLoadRoundRobin
          [⟨1, 100, 0, 1, true⟩, ⟨2, 100, 0, 1, false⟩] 10).2 ≠ 10 := by
  decide

/-- Counterexample to claim C2: with servers `[online, offline]` and
`loadAmount = 4` (divisible by the online count 1), Round Robin gives the
online server 2 units, not `4 = loadAmount / onlineCount`: the base is
computed from the total server count. -/
theorem c2_round_robin_counterexample :
    ¬ ((LoadBalancer.distributeLoadRoundRobin
          [⟨1, 100, 0, 1, true⟩, ⟨2, 100, 0, 1, false⟩] 4).1.map (·.currentLoad)
        = [4, 0]) := by
  decide

/-- Counterexample to claim C4: on capacities `[100, 200]`, both servers
online at full performance with zero load, and `loadAmount = 10`, the
integer formulation ends with loads `[4, 6]` while the fractional
target-utilization formulation ends with `[10/3, 20/3]`. -/
theorem c4_equivalence_counterexample :
    ¬ ((LoadBalancer.distributeLoadWeightedOptimization
          [⟨1, 100, 0, 1, true⟩, ⟨2, 200, 0, 1, true⟩] 10).1.map
            (fun s => (s.currentLoad : Rat))
        = (Sim.LoadBalancer.distributeLoadOptimization
            [⟨1, 100, 0⟩, ⟨2, 200, 0⟩] 10).map (·.currentLoad)) := by
  decide

/-- Counterexample to claim C5: under Round Robin with servers
`[online (load 4), offline (load 6)]`, the first rebalance leaves loads
`[5, 0]` and the second `[3, 0]`. -/
theorem c5_idempotence_counterexample :
    LoadBalancer.rebalanceLoads .ROUND_ROBIN
        (LoadBalancer.rebalanceLoads .ROUND_ROBIN
          [⟨1, 100, 4, 1, true⟩, ⟨2, 100, 6, 1, false⟩]) ≠
      LoadBalancer.rebalanceLoads .ROUND_ROBIN
        [⟨1, 100, 4, 1, true⟩, ⟨2, 100, 6, 1, false⟩] := by
  decide

/-- Counterexample to claim C6: under Round Robin, removing server 1
(load 4) while an offline server remains loses 2 of the 4 re-injected
units, so total system load is not preserved even though ample capacity
remains. -/
theorem c6_removal_counterexample :
    LoadBalancer.getTotalLoad
        (LoadBalancer.removeServer .ROUND_ROBIN
          [⟨1, 100, 4, 1, true⟩, ⟨2, 100, 0, 1, true⟩, ⟨3, 100, 0, 1, false⟩] 1).1 ≠
      LoadBalancer.getTotalLoad
        [⟨1, 100, 4, 1, true⟩, ⟨2, 100, 0, 1, true⟩, ⟨3, 100, 0, 1, false⟩] := by
  decide

/-- Claim C9: every ratio/percentage computation short-circuits to 0 on a
degenerate configuration: a zero-capacity server's load percentage, the
load variance of an empty or all-offline registry, the stand-alone
simulator's utilization ratio for non-positive capacity, and the system
load percentage when the online capacity is not positive, are all 0. -/
theorem c9_division_guards :
    (∀ s : Server, s.capacity = 0 → s.getLoadPercentage = 0) ∧
    LoadBalancer.calculateLoadVariance [] = 0 ∧
    (∀ ss : List Server, (∀ s ∈ ss, s.online = false) →
      LoadBalancer.calculateLoadVariance ss = 0) ∧
    (∀ s : Sim.Server, s.capacity ≤ 0 → s.utilizationRatio = 0) ∧
    (∀ ss : List Server, LoadBalancer.getTotalCapacity ss ≤ 0 →
      LoadBalancer.systemLoadPercentage ss = 0) := by
  refine ⟨?_, by rfl, ?_, ?_, ?_⟩
  · intro s h
    simp [Server.getLoadPercentage, h]
  · intro ss h
    unfold LoadBalancer.calculateLoadVariance
    have hfil : ss.filter (·.online) = [] := by
      rw [List.filter_eq_nil_iff]
      intro s hs
      simp [h s hs]
    by_cases he : ss.isEmpty
    · simp [he]
    · simp [he, hfil]
  · intro s h
    unfold Sim.Server.utilizationRatio
    rw [if_neg (by exact not_lt.mpr h)]
  · intro ss h
    unfold LoadBalancer.systemLoadPercentage
    rw [if_neg (by exact not_lt.mpr h)]

/-- Witness for C9 at concrete degenerate inputs. -/
theorem c9_division_guards_witness :
    Server.getLoadPercentage ⟨1, 0, 5, 1, true⟩ = 0 ∧
    LoadBalancer.calculateLoadVariance [⟨1, 100, 5, 1, false⟩] = 0 ∧
    Sim.Server.utilizationRatio ⟨1, 0, 7⟩ = 0 ∧
    LoadBalancer.systemLoadPercentage [⟨1, 100, 5, 1, false⟩] = 0 :=
  ⟨c9_division_guards.1 ⟨1, 0, 5, 1, true⟩ rfl,
   c9_division_guards.2.2.1 [⟨1, 100, 5, 1, false⟩] (by decide),
   c9_division_guards.2.2.2.1 ⟨1, 0, 7⟩ (by decide),
   c9_division_guards.2.2.2.2 [⟨1, 100, 5, 1, false⟩] (by decide)⟩

/-- Counterexample to claim C10: on a single online server with capacity
100 and load 5, `addLoadToServer(1, -10)` leaves load 0 (the assignment is
clamped at zero), not `5 + min(-10, 95) = -5`: the delta is not exactly
`min(loadAmount, availableCapacity)` for every `loadAmount`. -/
theorem c10_add_load_counterexample :
    ¬ ((LoadBalancer.addLoadToServer [⟨1, 100, 5, 1, true⟩] 1 (-10)).map (·.currentLoad)
        = [5 + min (-10) (Server.getAvailableCapacity ⟨1, 100, 5, 1, true⟩)]) := by
  decide

/-- Claim C10 (amended): an unknown id or an offline first match leaves the
server list unchanged; for an online match and a non-negative `loadAmount`
(the negative case is additionally clamped at zero load, see the
counterexample), exactly `min(loadAmount, availableCapacity)` is added, and
a server within capacity stays within capacity. -/
theorem c10_add_load_amended (ss : List Server) (serverId loadAmount : Int) :
    (ss.findIdx? (fun s => s.id = serverId) = none →
      LoadBalancer.addLoadToServer ss serverId loadAmount = ss) ∧
    (∀ i s, ss.findIdx? (fun s => s.id = serverId) = some i → ss[i]? = some s →
      (s.online = false → LoadBalancer.addLoadToServer ss serverId loadAmount = ss) ∧
      (s.online = true → 0 ≤ loadAmount → 0 ≤ s.currentLoad → s.currentLoad ≤ s.capacity →
        LoadBalancer.addLoadToServer ss serverId loadAmount =
          ss.set i
            { s with currentLoad := s.currentLoad + min loadAmount s.getAvailableCapacity } ∧
        s.currentLoad + min loadAmount s.getAvailableCapacity ≤ s.capacity)) := by
  constructor
  · intro hnone
    unfold LoadBalancer.addLoadToServer
    rw [hnone]
  · intro i s hidx hget
    constructor
    · intro hoff
      unfold LoadBalancer.addLoadToServer
      rw [hidx]
      simp only [hget, Option.getD_some]
      simp [hoff]
    · intro hon hL hc0 hcc
      have havail : s.getAvailableCapacity = s.capacity - s.currentLoad := by
        unfold Server.getAvailableCapacity
        simp [hon]
      constructor
      · unfold LoadBalancer.addLoadToServer
        rw [hidx]
        simp only [hget, Option.getD_some]
        simp only [hon, Bool.not_true, Bool.false_eq_true, if_false]
        have hamount : (if loadAmount > s.getAvailableCapacity
            then s.getAvailableCapacity else loadAmount)
            = min loadAmount s.getAvailableCapacity := by
          rw [min_def]
          split_ifs <;> omega
        rw [hamount]
        unfold Server.setCurrentLoad
        rw [if_neg (by omega)]
        rw [hon]
      · omega

/-- Witness for C10 (amended) on a single online server, capacity 100 and
load 5, adding 200 units: the load is capped at the available 95 units and
ends exactly at capacity. -/
theorem c10_add_load_amended_witness :
    LoadBalancer.addLoadToServer [⟨1, 100, 5, 1, true⟩] 1 200 = [⟨1, 100, 100, 1, true⟩] ∧
    (5 : Int) + min 200 (Server.getAvailableCapacity ⟨1, 100, 5, 1, true⟩) ≤ 100 := by
  have h := ((c10_add_load_amended [⟨1, 100, 5, 1, true⟩] 1 200).2 0 ⟨1, 100, 5, 1, true⟩
    (by decide) (by decide)).2 rfl (by decide) (by decide) (by decide)
  refine ⟨?_, h.2⟩
  rw [h.1]
  decide

/-- Claim C7: on an update tick, a record whose last state change is less
than 5 simulated seconds old is left completely unchanged; otherwise the
drawn value fires at most the first matching transition of the spec's
table, in the listed order, exactly as `applyHealthTable` evaluates it. -/
theorem serverState_beq_eq_decide (a b : ServerState) : (a == b) = decide (a = b) :=
  rfl

theorem c7_health_tick (sh : ServerHealth) (now rand : Rat) :
    updateServerState sh now rand =
      if now - sh.lastStateChange < 5 then sh
      else applyHealthTable sh now rand := by
  by_cases hd : now - sh.lastStateChange < 5
  · rw [if_pos hd]
    unfold updateServerState
    rw [if_pos hd]
  · rw [if_neg hd]
    unfold updateServerState applyHealthTable healthTransitionTable
    rw [if_neg hd]
    cases hstate : sh.state with
    | HEALTHY =>
      by_cases h1 : rand < sh.failureProbability <;>
        simp [List.find?, serverState_beq_eq_decide, hstate, h1]
    | DEGRADED =>
      by_cases h1 : rand < sh.recoveryProbability <;>
        by_cases h2 : rand > 1 - sh.failureProbability * 2 <;>
        simp [List.find?, serverState_beq_eq_decide, hstate, h1, h2, mul_comm]
    | CRITICAL =>
      by_cases h1 : rand < sh.recoveryProbability / 2 <;>
        by_cases h2 : rand > 1 - sh.failureProbability * 3 <;>
        simp [List.find?, serverState_beq_eq_decide, hstate, h1, h2, mul_comm]
    | OFFLINE =>
      by_cases h1 : rand < sh.recoveryProbability / 3 <;>
        simp [List.find?, serverState_beq_eq_decide, hstate, h1]

/-- Claim C8: for a record that is not offline, `degradeServerPerformance`
clamps the factor into `[0,1]`, multiplies the multiplier by it, and
re-derives the state through the thresholds of `stateFromMultiplier`
(forcing the multiplier to 0 below 0.1); in particular a factor of 0.05 on
a Healthy record (multiplier at most 1) drives the product below 0.1 and
forces the state Offline, multiplier 0, in one call. -/
theorem c8_degrade_performance (sh : ServerHealth) (factor now : Rat)
    (hoff : sh.state ≠ .OFFLINE) :
    ((degradeServerPerformance sh factor now).state =
        stateFromMultiplier sh.state (sh.performanceMultiplier * (max 0 (min 1 factor))) ∧
      (degradeServerPerformance sh factor now).performanceMultiplier =
        (if sh.performanceMultiplier * (max 0 (min 1 factor)) < 1/10 then 0
         else sh.performanceMultiplier * (max 0 (min 1 factor)))) ∧
    (sh.state = .HEALTHY → sh.performanceMultiplier ≤ 1 →
      sh.performanceMultiplier * (max 0 (min 1 ((1 : Rat)/20))) < 1/10 ∧
      (degradeServerPerformance sh (1/20) now).state = .OFFLINE ∧
      (degradeServerPerformance sh (1/20) now).performanceMultiplier = 0) := by
  have hgen : ∀ f : Rat,
      (degradeServerPerformance sh f now).state =
        stateFromMultiplier sh.state (sh.performanceMultiplier * (max 0 (min 1 f))) ∧
      (degradeServerPerformance sh f now).performanceMultiplier =
        (if sh.performanceMultiplier * (max 0 (min 1 f)) < 1/10 then 0
         else sh.performanceMultiplier * (max 0 (min 1 f))) := by
    intro f
    simp only [degradeServerPerformance, stateFromMultiplier, if_neg hoff]
    split_ifs <;> simp_all
  refine ⟨hgen factor, ?_⟩
  intro hh hm1
  have hclamp : max 0 (min 1 ((1 : Rat)/20)) = 1/20 := by norm_num
  have hlt : sh.performanceMultiplier * (max 0 (min 1 ((1 : Rat)/20))) < 1/10 := by
    rw [hclamp]
    nlinarith [hm1]
  refine ⟨hlt, ?_, ?_⟩
  · rw [(hgen (1/20)).1, hh]
    unfold stateFromMultiplier
    rw [if_pos hlt]
  · rw [(hgen (1/20)).2, if_pos hlt]

/-- Witness for C8: a fresh Healthy record degraded by 0.05 goes Offline
with multiplier 0 in one call. -/
theorem c8_degrade_performance_witness :
    (degradeServerPerformance ⟨1, .HEALTHY, 1, 1/100, 1/5, 1, 0⟩ (1/20) 3).state = .OFFLINE ∧
    (degradeServerPerformance ⟨1, .HEALTHY, 1, 1/100, 1/5, 1, 0⟩ (1/20) 3).performanceMultiplier = 0 := by
  have h := (c8_degrade_performance ⟨1, .HEALTHY, 1, 1/100, 1/5, 1, 0⟩ (1/20) 3
    (by decide)).2 rfl (by norm_num)
  exact ⟨h.2.1, h.2.2⟩

namespace LoadBalancer

theorem llScan_eq_go (ss : List Server) : llScan ss = llScanGo 0 (none, -1) ss := rfl

theorem llScanGo_cons (k : Nat) (acc : Option Nat × Int) (s : Server) (rest : List Server) :
    llScanGo k acc (s :: rest) =
      llScanGo (k + 1)
        (if !s.online then acc
         else if s.getAvailableCapacity > acc.2 then (some k, s.getAvailableCapacity)
         else acc) rest := by
  rw [llScanGo, llScanGo, List.enumFrom_cons, List.foldl_cons]

theorem llScanGo_spec (ss : List Server) : ∀ (k : Nat) (acc : Option Nat × Int),
    (∀ j (hj : j < ss.length), ss[j].online = true →
      ss[j].getAvailableCapacity ≤ (llScanGo k acc ss).2) ∧
    acc.2 ≤ (llScanGo k acc ss).2 ∧
    ((llScanGo k acc ss = acc ∧
        ∀ j (hj : j < ss.length), ss[j].online = true →
          ss[j].getAvailableCapacity ≤ acc.2) ∨
      (∃ j, ∃ hj : j < ss.length,
        (llScanGo k acc ss).1 = some (k + j) ∧
        ss[j].online = true ∧
        (llScanGo k acc ss).2 = ss[j].getAvailableCapacity ∧
        acc.2 < ss[j].getAvailableCapacity ∧
        (∀ j' (hj' : j' < ss.length), j' < j → ss[j'].online = true →
          ss[j'].getAvailableCapacity < ss[j].getAvailableCapacity))) := by
  induction ss with
  | nil =>
    intro k acc
    refine ⟨?_, le_refl _, Or.inl ⟨rfl, ?_⟩⟩ <;> intro j hj <;> simp at hj
  | cons s rest ih =>
    intro k acc
    rw [llScanGo_cons]
    by_cases hon : s.online
    · by_cases hgt : s.getAvailableCapacity > acc.2
      · -- head becomes the new best
        have hstep :
            (if !s.online then acc
             else if s.getAvailableCapacity > acc.2 then ((some k : Option Nat), s.getAvailableCapacity)
             else acc) = (some k, s.getAvailableCapacity) := by
          simp [hon, hgt]
        rw [hstep]
        obtain ⟨hmax, hle, hdisj⟩ := ih (k + 1) (some k, s.getAvailableCapacity)
        refine ⟨?_, ?_, ?_⟩
        · intro j hj ho
          rcases j with _ | j
          · simpa using hle
          · exact hmax j (by simpa using hj) (by simpa using ho)
        · calc acc.2 ≤ s.getAvailableCapacity := le_of_lt hgt
            _ ≤ _ := hle
        · rcases hdisj with ⟨heq, hall⟩ | ⟨j, hj, h1, h2, h3, h4, h5⟩
          · refine Or.inr ⟨0, by simp, ?_, by simpa using hon, ?_, by simpa using hgt, ?_⟩
            · rw [heq]; rfl
            · rw [heq]; simp
            · intro j' hj' hlt' _; omega
          · refine Or.inr ⟨j + 1, by simpa using hj, ?_, by simpa using h2, by simpa using h3, ?_, ?_⟩
            · rw [h1]; congr 1; omega
            · simp only [List.getElem_cons_succ]
              exact lt_trans hgt h4
            · intro j' hj' hlt' ho'
              rcases j' with _ | j'
              · simp only [List.getElem_cons_zero] at ho' ⊢
                simp only [List.getElem_cons_succ]
                exact h4
              · simp only [List.getElem_cons_succ] at ho' ⊢
                exact h5 j' (by simpa using hj') (by omega) ho'
      · -- head online but not better than the accumulator
        have hstep :
            (if !s.online then acc
             else if s.getAvailableCapacity > acc.2 then ((some k : Option Nat), s.getAvailableCapacity)
             else acc) = acc := by
          simp [hon, hgt]
        rw [hstep]
        obtain ⟨hmax, hle, hdisj⟩ := ih (k + 1) acc
        push_neg at hgt
        refine ⟨?_, hle, ?_⟩
        · intro j hj ho
          rcases j with _ | j
          · simp only [List.getElem_cons_zero]
            exact le_trans hgt hle
          · exact hmax j (by simpa using hj) (by simpa using ho)
        · rcases hdisj with ⟨heq, hall⟩ | ⟨j, hj, h1, h2, h3, h4, h5⟩
          · refine Or.inl ⟨heq, ?_⟩
            intro j hj ho
            rcases j with _ | j
            · simpa using hgt
            · exact hall j (by simpa using hj) (by simpa using ho)
          · refine Or.inr ⟨j + 1, by simpa using hj, ?_, by simpa using h2, by simpa using h3, h4, ?_⟩
            · rw [h1]; congr 1; omega
            · intro j' hj' hlt' ho'
              rcases j' with _ | j'
              · simp only [List.getElem_cons_zero] at ho' ⊢
                simp only [List.getElem_cons_succ]
                exact lt_of_le_of_lt hgt h4
              · simp only [List.getElem_cons_succ] at ho' ⊢
                exact h5 j' (by simpa using hj') (by omega) ho'
    · -- head offline
      have hstep :
          (if !s.online then acc
           else if s.getAvailableCapacity > acc.2 then ((some k : Option Nat), s.getAvailableCapacity)
           else acc) = acc := by
        simp [hon]
      rw [hstep]
      obtain ⟨hmax, hle, hdisj⟩ := ih (k + 1) acc
      refine ⟨?_, hle, ?_⟩
      · intro j hj ho
        rcases j with _ | j
        · simp only [List.getElem_cons_zero] at ho
          exact absurd ho (by simpa using hon)
        · exact hmax j (by simpa using hj) (by simpa using ho)
      · rcases hdisj with ⟨heq, hall⟩ | ⟨j, hj, h1, h2, h3, h4, h5⟩
        · refine Or.inl ⟨heq, ?_⟩
          intro j hj ho
          rcases j with _ | j
          · simp only [List.getElem_cons_zero] at ho
            exact absurd ho (by simpa using hon)
          · exact hall j (by simpa using hj) (by simpa using ho)
        · refine Or.inr ⟨j + 1, by simpa using hj, ?_, by simpa using h2, by simpa using h3, h4, ?_⟩
          · rw [h1]; congr 1; omega
          · intro j' hj' hlt' ho'
            rcases j' with _ | j'
            · simp only [List.getElem_cons_zero] at ho'
              exact absurd ho' (by simpa using hon)
            · simp only [List.getElem_cons_succ] at ho' ⊢
              exact h5 j' (by simpa using hj') (by omega) ho'

end LoadBalancer

namespace LoadBalancer

theorem llScan_none (ss : List Server) (h : (llScan ss).1 = none) :
    ∀ j (hj : j < ss.length), ss[j].online = true →
      ss[j].getAvailableCapacity ≤ -1 := by
  obtain ⟨hmax, hle, hdisj⟩ := llScanGo_spec ss 0 (none, -1)
  rw [llScan_eq_go] at h
  rcases hdisj with ⟨heq, hall⟩ | ⟨j, hj, h1, _⟩
  · exact hall
  · rw [h1] at h; cases h

theorem llScan_some (ss : List Server) (i : Nat) (b : Int)
    (h : llScan ss = (some i, b)) :
    ∃ hi : i < ss.length, ss[i].online = true ∧ b = ss[i].getAvailableCapacity ∧
      (∀ j (hj : j < ss.length), ss[j].online = true →
        ss[j].getAvailableCapacity ≤ b) ∧
      (∀ j (hj : j < ss.length), j < i → ss[j].online = true →
        ss[j].getAvailableCapacity < b) := by
  obtain ⟨hmax, hle, hdisj⟩ := llScanGo_spec ss 0 (none, -1)
  rw [llScan_eq_go] at h
  rcases hdisj with ⟨heq, hall⟩ | ⟨j, hj, h1, h2, h3, h4, h5⟩
  · rw [heq] at h; cases h
  · rw [h] at h1 h3
    simp only at h1 h3
    have hij : i = j := by simpa using h1
    subst hij
    refine ⟨hj, h2, h3, ?_, ?_⟩
    · intro j' hj' ho'
      have := hmax j' hj' ho'
      rw [h] at this
      exact this
    · intro j' hj' hlt ho'
      rw [h3]
      exact h5 j' hj' hlt ho'

end LoadBalancer

theorem int_list_sum_nonpos : ∀ {l : List Int}, (∀ x ∈ l, x ≤ 0) → l.sum ≤ 0 := by
  intro l
  induction l with
  | nil => intro _; simp
  | cons x xs ih =>
    intro h
    rw [List.sum_cons]
    have hx := h x (by simp)
    have hxs := ih (fun y hy => h y (by simp [hy]))
    omega

namespace LoadBalancer

theorem getTotalLoad_set (ss : List Server) (i : Nat) (s' : Server) (hi : i < ss.length) :
    getTotalLoad (ss.set i s') = getTotalLoad ss - ss[i].currentLoad + s'.currentLoad := by
  unfold getTotalLoad
  rw [List.map_set, List.sum_set']
  simp only [List.length_map, List.getElem_map]
  rw [dif_pos hi]
  ring

theorem sumAvailable_set (ss : List Server) (i : Nat) (s' : Server) (hi : i < ss.length) :
    sumAvailable (ss.set i s') =
      sumAvailable ss - ss[i].getAvailableCapacity + s'.getAvailableCapacity := by
  unfold sumAvailable
  rw [List.map_set, List.sum_set']
  simp only [List.length_map, List.getElem_map]
  rw [dif_pos hi]
  ring

theorem llLoop_conservation :
    ∀ (fuel : Nat) (ss : List Server) (remaining : Int),
      0 ≤ remaining → (∀ s ∈ ss, 0 ≤ s.currentLoad) → remaining.toNat ≤ fuel →
      getTotalLoad (llLoop ss remaining fuel).1 + (llLoop ss remaining fuel).2 =
          getTotalLoad ss + remaining ∧
        (∀ s ∈ (llLoop ss remaining fuel).1, 0 ≤ s.currentLoad) ∧
        0 ≤ (llLoop ss remaining fuel).2 ∧
        sumAvailable (llLoop ss remaining fuel).1 =
          sumAvailable ss - (remaining - (llLoop ss remaining fuel).2) := by
  intro fuel
  induction fuel with
  | zero =>
    intro ss remaining h0 hpos hf
    have : remaining = 0 := by omega
    subst this
    simp only [llLoop]
    norm_num
    exact hpos
  | succ fuel ih =>
    intro ss remaining h0 hpos hf
    simp only [llLoop]
    by_cases hr : 0 < remaining
    · simp only [if_pos hr]
      rcases hscan : llScan ss with ⟨o, b⟩
      cases o with
      | none =>
        dsimp only
        exact ⟨by ring, hpos, by omega, by ring⟩
      | some i =>
        dsimp only
        by_cases hb : b ≤ 0
        · rw [if_pos hb]
          exact ⟨by ring, hpos, by omega, by ring⟩
        · rw [if_neg hb]
          cases hs : ss[i]? with
          | none =>
            dsimp only
            exact ⟨by ring, hpos, by omega, by ring⟩
          | some s =>
            obtain ⟨hi, hsi⟩ := List.getElem?_eq_some.mp hs
            obtain ⟨hi2, hson, hbav, hmax, hfirst⟩ := llScan_some ss i b hscan
            have hson2 : s.online = true := by rw [← hsi]; exact hson
            have hmin1 : 1 ≤ min remaining b := le_min hr (by omega)
            have hsload : 0 ≤ s.currentLoad := hpos s (hsi ▸ List.getElem_mem hi)
            have hnoclamp : ¬ (s.currentLoad + min remaining b < 0) := by omega
            have hset : (s.setCurrentLoad (s.currentLoad + min remaining b)).currentLoad
                = s.currentLoad + min remaining b := by
              unfold Server.setCurrentLoad
              simp [hnoclamp]
            obtain ⟨ih1, ih2, ih3, ih4⟩ := ih
              (ss.set i (s.setCurrentLoad (s.currentLoad + min remaining b)))
              (remaining - min remaining b)
              (by omega)
              (by
                intro t ht
                rcases List.mem_or_eq_of_mem_set ht with h | h
                · exact hpos t h
                · rw [h, hset]; omega)
              (by omega)
            have htot : getTotalLoad
                (ss.set i (s.setCurrentLoad (s.currentLoad + min remaining b)))
                = getTotalLoad ss + min remaining b := by
              rw [getTotalLoad_set ss i _ hi, hset, hsi]
              ring
            have havset : (s.setCurrentLoad (s.currentLoad + min remaining b)).getAvailableCapacity
                = s.getAvailableCapacity - min remaining b := by
              unfold Server.getAvailableCapacity Server.setCurrentLoad
              simp only [hson2, Bool.not_true, Bool.false_eq_true, if_false, if_neg hnoclamp]
              ring
            have hav : sumAvailable
                (ss.set i (s.setCurrentLoad (s.currentLoad + min remaining b)))
                = sumAvailable ss - min remaining b := by
              rw [sumAvailable_set ss i _ hi, havset, hsi]
              ring
            refine ⟨?_, ih2, ih3, ?_⟩
            · rw [ih1, htot]; ring
            · rw [ih4, hav]; ring
    · have : remaining = 0 := by omega
      subst this
      simp only [if_neg hr]
      norm_num
      exact hpos

end LoadBalancer

namespace LoadBalancer

theorem list_set_self (l : List Server) (i : Nat) (h : i < l.length) :
    l.set i l[i] = l := by
  apply List.ext_getElem
  · simp
  · intro j h1 h2
    rw [List.getElem_set]
    split <;> simp_all

theorem sumAvailable_nonpos_of_bound (ss : List Server) (b : Int) (hb : b ≤ 0)
    (h : ∀ j (hj : j < ss.length), ss[j].online = true →
      ss[j].getAvailableCapacity ≤ b) :
    sumAvailable ss ≤ 0 := by
  apply int_list_sum_nonpos
  intro x hx
  obtain ⟨s, hsmem, rfl⟩ := List.mem_map.mp hx
  obtain ⟨j, hj, rfl⟩ := List.mem_iff_getElem.mp hsmem
  cases ho : ss[j].online with
  | true => exact le_trans (h j hj ho) hb
  | false =>
    unfold Server.getAvailableCapacity
    simp [ho]

theorem llLoop_full :
    ∀ (fuel : Nat) (ss : List Server) (remaining : Int),
      0 ≤ remaining → (∀ s ∈ ss, 0 ≤ s.currentLoad) →
      remaining ≤ sumAvailable ss → remaining.toNat ≤ fuel →
      (llLoop ss remaining fuel).2 = 0 := by
  intro fuel
  induction fuel with
  | zero =>
    intro ss remaining h0 hpos hcap hf
    have : remaining = 0 := by omega
    subst this
    simp [llLoop]
  | succ fuel ih =>
    intro ss remaining h0 hpos hcap hf
    simp only [llLoop]
    by_cases hr : 0 < remaining
    · simp only [if_pos hr]
      rcases hscan : llScan ss with ⟨o, b⟩
      cases o with
      | none =>
        exfalso
        have := sumAvailable_nonpos_of_bound ss (-1) (by omega) (llScan_none ss (by rw [hscan]))
        omega
      | some i =>
        dsimp only
        by_cases hb : b ≤ 0
        · exfalso
          obtain ⟨hi2, hson, hbav, hmax, hfirst⟩ := llScan_some ss i b hscan
          have := sumAvailable_nonpos_of_bound ss b hb hmax
          omega
        · rw [if_neg hb]
          cases hs : ss[i]? with
          | none =>
            exfalso
            obtain ⟨hi2, _⟩ := llScan_some ss i b hscan
            rw [List.getElem?_eq_getElem hi2] at hs
            cases hs
          | some s =>
            obtain ⟨hi, hsi⟩ := List.getElem?_eq_some.mp hs
            obtain ⟨hi2, hson, hbav, hmax, hfirst⟩ := llScan_some ss i b hscan
            have hson2 : s.online = true := by rw [← hsi]; exact hson
            have hmin1 : 1 ≤ min remaining b := le_min hr (by omega)
            have hsload : 0 ≤ s.currentLoad := hpos s (hsi ▸ List.getElem_mem hi)
            have hnoclamp : ¬ (s.currentLoad + min remaining b < 0) := by omega
            have hset : (s.setCurrentLoad (s.currentLoad + min remaining b)).currentLoad
                = s.currentLoad + min remaining b := by
              unfold Server.setCurrentLoad
              simp [hnoclamp]
            have havset : (s.setCurrentLoad (s.currentLoad + min remaining b)).getAvailableCapacity
                = s.getAvailableCapacity - min remaining b := by
              unfold Server.getAvailableCapacity Server.setCurrentLoad
              simp only [hson2, Bool.not_true, Bool.false_eq_true, if_false, if_neg hnoclamp]
              ring
            have hav : sumAvailable
                (ss.set i (s.setCurrentLoad (s.currentLoad + min remaining b)))
                = sumAvailable ss - min remaining b := by
              rw [sumAvailable_set ss i _ hi, havset, hsi]
              ring
            apply ih
            · omega
            · intro t ht
              rcases List.mem_or_eq_of_mem_set ht with h | h
              · exact hpos t h
              · rw [h, hset]; omega
            · rw [hav]; omega
            · omega
    · simp [hr]

theorem llLoop_frame :
    ∀ (fuel : Nat) (ss : List Server) (remaining : Int),
      ((llLoop ss remaining fuel).1).map serverFrame = ss.map serverFrame := by
  intro fuel
  induction fuel with
  | zero =>
    intro ss remaining
    simp only [llLoop]
    split <;> rfl
  | succ fuel ih =>
    intro ss remaining
    simp only [llLoop]
    by_cases hr : 0 < remaining
    · simp only [if_pos hr]
      rcases hscan : llScan ss with ⟨o, b⟩
      cases o with
      | none => rfl
      | some i =>
        dsimp only
        by_cases hb : b ≤ 0
        · rw [if_pos hb]
        · rw [if_neg hb]
          cases hs : ss[i]? with
          | none => rfl
          | some s =>
            obtain ⟨hi, hsi⟩ := List.getElem?_eq_some.mp hs
            rw [ih]
            rw [List.map_set]
            have hframe : serverFrame (s.setCurrentLoad (s.currentLoad + min remaining b))
                = serverFrame s := rfl
            rw [hframe]
            apply List.ext_getElem
            · simp
            · intro j hl1 hl2
              rw [List.getElem_set]
              split
              · rename_i hij
                subst hij
                simp [hsi]
              · rfl
    · simp [hr]

end LoadBalancer

namespace LoadBalancer

theorem llLoop_stops :
    ∀ (fuel : Nat) (ss : List Server) (remaining : Int), remaining.toNat ≤ fuel →
      (llLoop ss remaining fuel).2 = 0 ∨
      (∀ j (hj : j < (llLoop ss remaining fuel).1.length),
        ((llLoop ss remaining fuel).1)[j].online = true →
        ((llLoop ss remaining fuel).1)[j].getAvailableCapacity ≤ 0) := by
  intro fuel
  induction fuel with
  | zero =>
    intro ss remaining hf
    have hr : ¬ 0 < remaining := by omega
    simp [llLoop, hr]
  | succ fuel ih =>
    intro ss remaining hf
    by_cases hr : 0 < remaining
    · cases hscan1 : (llScan ss).1 with
      | none =>
        obtain ⟨b, hsc⟩ : ∃ b, llScan ss = (none, b) :=
          ⟨(llScan ss).2, Prod.ext hscan1 rfl⟩
        simp only [llLoop, if_pos hr, hsc]
        refine Or.inr ?_
        intro j hj ho
        have := llScan_none ss (by rw [hsc]) j (by simpa using hj) ho
        omega
      | some i =>
        obtain ⟨b, hsc⟩ : ∃ b, llScan ss = (some i, b) :=
          ⟨(llScan ss).2, Prod.ext hscan1 rfl⟩
        obtain ⟨hi2, hson, hbav, hmax, hfirst⟩ := llScan_some ss i b hsc
        by_cases hb : b ≤ 0
        · simp only [llLoop, if_pos hr, hsc, if_pos hb]
          refine Or.inr ?_
          intro j hj ho
          exact le_trans (hmax j (by simpa using hj) ho) hb
        · have hs : ss[i]? = some ss[i] := List.getElem?_eq_getElem hi2
          simp only [llLoop, if_pos hr, hsc, if_neg hb, hs]
          have hmin1 : 1 ≤ min remaining b := le_min hr (by omega)
          exact ih _ _ (by omega)
    · simp [llLoop, hr]

end LoadBalancer

/-- Claim C3: Least Loaded selection and loop structure.  With ids strictly
increasing along the registry (the order maintained by `addServer` and
`removeServer`): (a) the scan selects an online server of maximal available
capacity whose id is least among the online maximisers; (b) while load
remains and the best capacity is positive, one iteration assigns exactly
`min(remainingLoad, availableCapacity)` to it, never more than its
available capacity at that moment; (c) the loop ends with either nothing
left undistributed or no online server of positive available capacity. -/
theorem c3_least_loaded (ss : List Server) (remaining : Int) (fuel : Nat)
    (hsorted : List.Pairwise (fun a b => a.id < b.id) ss)
    (hfuel : remaining.toNat ≤ fuel) :
    (∀ i b, LoadBalancer.llScan ss = (some i, b) → ∃ hi : i < ss.length,
      ss[i].online = true ∧ b = ss[i].getAvailableCapacity ∧
      (∀ j (hj : j < ss.length), ss[j].online = true →
        ss[j].getAvailableCapacity ≤ b) ∧
      (∀ j (hj : j < ss.length), ss[j].online = true →
        ss[j].getAvailableCapacity = b → ss[i].id ≤ ss[j].id)) ∧
    (∀ i b s, 0 < remaining → LoadBalancer.llScan ss = (some i, b) → 0 < b →
      ss[i]? = some s →
      LoadBalancer.llLoop ss remaining (fuel + 1) =
        LoadBalancer.llLoop
          (ss.set i (s.setCurrentLoad (s.currentLoad + min remaining b)))
          (remaining - min remaining b) fuel ∧
      min remaining b ≤ s.getAvailableCapacity) ∧
    ((LoadBalancer.llLoop ss remaining fuel).2 = 0 ∨
      (∀ j (hj : j < (LoadBalancer.llLoop ss remaining fuel).1.length),
        ((LoadBalancer.llLoop ss remaining fuel).1)[j].online = true →
        ((LoadBalancer.llLoop ss remaining fuel).1)[j].getAvailableCapacity ≤ 0)) := by
  refine ⟨?_, ?_, LoadBalancer.llLoop_stops fuel ss remaining hfuel⟩
  · intro i b hscan
    obtain ⟨hi2, hson, hbav, hmax, hfirst⟩ := LoadBalancer.llScan_some ss i b hscan
    refine ⟨hi2, hson, hbav, hmax, ?_⟩
    intro j hj ho hav
    rcases lt_trichotomy i j with h | h | h
    · exact le_of_lt ((List.pairwise_iff_getElem.mp hsorted) i j hi2 hj h)
    · subst h; exact le_refl _
    · exact absurd hav (by
        have := hfirst j hj h ho
        omega)
  · intro i b s hr hscan hb hs
    obtain ⟨hi2, hson, hbav, hmax, hfirst⟩ := LoadBalancer.llScan_some ss i b hscan
    obtain ⟨hi, hsi⟩ := List.getElem?_eq_some.mp hs
    constructor
    · simp only [LoadBalancer.llLoop, if_pos hr, hscan]
      rw [if_neg (by omega), hs]
    · rw [← hsi, ← hbav]
      exact min_le_right _ _

/-- Witness for C3 on two fresh online servers (capacities 10 and 30) and
35 units of load: the loop stops with nothing undistributed or saturated
servers. -/
theorem c3_least_loaded_witness :
    (LoadBalancer.llLoop [⟨1, 10, 0, 1, true⟩, ⟨2, 30, 0, 1, true⟩] 35 35).2 = 0 ∨
    (∀ j (hj : j <
        (LoadBalancer.llLoop [⟨1, 10, 0, 1, true⟩, ⟨2, 30, 0, 1, true⟩] 35 35).1.length),
      ((LoadBalancer.llLoop [⟨1, 10, 0, 1, true⟩, ⟨2, 30, 0, 1, true⟩] 35 35).1)[j].online = true →
      ((LoadBalancer.llLoop [⟨1, 10, 0, 1, true⟩, ⟨2, 30, 0, 1, true⟩] 35 35).1)[j].getAvailableCapacity ≤ 0) :=
  (c3_least_loaded [⟨1, 10, 0, 1, true⟩, ⟨2, 30, 0, 1, true⟩] 35 35
    (by decide) (by decide)).2.2

namespace LoadBalancer

theorem rr_fold_length (startIdx n : Nat) (base : Int) :
    ∀ (L : List Nat) (acc : List Server × Int),
      (L.foldl (rrStep startIdx n base) acc).1.length = acc.1.length := by
  intro L
  induction L with
  | nil => intro acc; rfl
  | cons i rest ih =>
    intro acc
    rw [List.foldl_cons]
    rw [ih]
    simp only [rrStep]
    cases hs : acc.1[(startIdx + i) % n]? with
    | none => rfl
    | some s =>
      dsimp only
      split
      · simp
      · rfl

theorem rr_fold_frame (startIdx n : Nat) (base : Int) :
    ∀ (L : List Nat) (acc : List Server × Int),
      ((L.foldl (rrStep startIdx n base) acc).1).map serverFrame =
        acc.1.map serverFrame := by
  intro L
  induction L with
  | nil => intro acc; rfl
  | cons i rest ih =>
    intro acc
    rw [List.foldl_cons, ih]
    simp only [rrStep]
    cases hs : acc.1[(startIdx + i) % n]? with
    | none => rfl
    | some s =>
      dsimp only
      split
      · obtain ⟨hi, hsi⟩ := List.getElem?_eq_some.mp hs
        rw [List.map_set]
        have hframe : serverFrame (s.setCurrentLoad
            (s.currentLoad + (base + if 0 < acc.2 then 1 else 0))) = serverFrame s := rfl
        rw [hframe]
        apply List.ext_getElem
        · simp
        · intro j hl1 hl2
          rw [List.getElem_set]
          split
          · rename_i hij
            subst hij
            simp [hsi]
          · rfl
      · rfl

theorem rr_fold_total_online (startIdx n : Nat) (base : Int) (hbase : 0 ≤ base) :
    ∀ (L : List Nat) (acc : List Server × Int),
      acc.1.length = n → 0 < n →
      (∀ s ∈ acc.1, s.online = true) → (∀ s ∈ acc.1, 0 ≤ s.currentLoad) →
      0 ≤ acc.2 →
      (∀ s ∈ (L.foldl (rrStep startIdx n base) acc).1, 0 ≤ s.currentLoad) ∧
      getTotalLoad (L.foldl (rrStep startIdx n base) acc).1 +
          (L.foldl (rrStep startIdx n base) acc).2 =
        getTotalLoad acc.1 + acc.2 + base * L.length ∧
      (L.foldl (rrStep startIdx n base) acc).2 = max (acc.2 - L.length) 0 := by
  intro L
  induction L with
  | nil =>
    intro acc hlen hn honl hpos hrem
    refine ⟨hpos, by simp, by simp; omega⟩
  | cons i rest ih =>
    intro acc hlen hn honl hpos hrem
    rw [List.foldl_cons]
    have hidx : (startIdx + i) % n < n := Nat.mod_lt _ hn
    have hidx2 : (startIdx + i) % n < acc.1.length := by omega
    have hs : acc.1[(startIdx + i) % n]? = some (acc.1[(startIdx + i) % n]) :=
      List.getElem?_eq_getElem hidx2
    have hson : (acc.1[(startIdx + i) % n]).online = true :=
      honl _ (List.getElem_mem hidx2)
    have hstep : rrStep startIdx n base acc i =
        (acc.1.set ((startIdx + i) % n)
          ((acc.1[(startIdx + i) % n]).setCurrentLoad
            ((acc.1[(startIdx + i) % n]).currentLoad +
              (base + if 0 < acc.2 then 1 else 0))),
         if 0 < acc.2 then acc.2 - 1 else acc.2) := by
      simp only [rrStep, hs]
      rw [if_pos hson]
    rw [hstep]
    have hload0 : 0 ≤ (acc.1[(startIdx + i) % n]).currentLoad :=
      hpos _ (List.getElem_mem hidx2)
    have hbonus : (0 : Int) ≤ (if 0 < acc.2 then (1 : Int) else 0) := by
      split <;> omega
    have hnewload : (acc.1[(startIdx + i) % n]).setCurrentLoad
        ((acc.1[(startIdx + i) % n]).currentLoad + (base + if 0 < acc.2 then 1 else 0))
        = { acc.1[(startIdx + i) % n] with currentLoad :=
            (acc.1[(startIdx + i) % n]).currentLoad + (base + if 0 < acc.2 then 1 else 0) } := by
      unfold Server.setCurrentLoad
      rw [if_neg (by omega)]
    obtain ⟨ih1, ih2, ih3⟩ := ih
      (acc.1.set ((startIdx + i) % n)
        ((acc.1[(startIdx + i) % n]).setCurrentLoad
          ((acc.1[(startIdx + i) % n]).currentLoad + (base + if 0 < acc.2 then 1 else 0))),
       if 0 < acc.2 then acc.2 - 1 else acc.2)
      (by simpa using hlen) hn
      (by
        intro t ht
        rcases List.mem_or_eq_of_mem_set ht with h | h
        · exact honl t h
        · rw [h, hnewload]; exact hson)
      (by
        intro t ht
        rcases List.mem_or_eq_of_mem_set ht with h | h
        · exact hpos t h
        · rw [h, hnewload]
          simp only
          omega)
      (by dsimp only; split <;> omega)
    refine ⟨ih1, ?_, ?_⟩
    · rw [ih2]
      have htot : getTotalLoad (acc.1.set ((startIdx + i) % n)
          ((acc.1[(startIdx + i) % n]).setCurrentLoad
            ((acc.1[(startIdx + i) % n]).currentLoad + (base + if 0 < acc.2 then 1 else 0))))
          = getTotalLoad acc.1 + (base + if 0 < acc.2 then 1 else 0) := by
        rw [getTotalLoad_set _ _ _ hidx2, hnewload]
        simp only
        ring
      rw [htot]
      simp only [List.length_cons]
      split <;> push_cast <;> ring
    · rw [ih3]
      simp only [List.length_cons]
      split <;> [skip; skip] <;> omega

end LoadBalancer

namespace LoadBalancer

theorem rr_conservation_online (ss : List Server) (L : Int)
    (honl : ∀ s ∈ ss, s.online = true) (hpos : ∀ s ∈ ss, 0 ≤ s.currentLoad)
    (hL : 0 ≤ L) :
    getTotalLoad (distributeLoadRoundRobin ss L).1 +
        (distributeLoadRoundRobin ss L).2 =
      getTotalLoad ss + L := by
  unfold distributeLoadRoundRobin
  by_cases hemp : ss.isEmpty
  · simp [hemp]
  · rw [if_neg hemp]
    have hn : 0 < ss.length := by
      cases ss with
      | nil => simp at hemp
      | cons a l => simp
    cases hfind : ss.findIdx? (·.online) with
    | none =>
      exfalso
      have := List.findIdx?_eq_none_iff.mp hfind
      cases ss with
      | nil => simp at hn
      | cons a l =>
        have h1 := this a (by simp)
        have h2 := honl a (by simp)
        rw [h2] at h1
        cases h1
    | some startIdx =>
      dsimp only
      have hbase : 0 ≤ L.tdiv ss.length :=
        Int.tdiv_nonneg hL (by positivity)
      have hrem : 0 ≤ L.tmod ss.length := Int.tmod_nonneg _ hL
      have hremlt : L.tmod ss.length < ss.length :=
        Int.tmod_lt_of_pos L (by exact_mod_cast hn)
      obtain ⟨h1, h2, h3⟩ := rr_fold_total_online startIdx ss.length (L.tdiv ss.length)
        hbase (List.range ss.length) (ss, L.tmod ss.length) rfl hn honl hpos hrem
      simp only [List.length_range] at h2 h3
      have hid := Int.tdiv_add_tmod L ss.length
      rw [h3] at h2
      have hmax0 : max (L.tmod ss.length - ss.length) 0 = 0 := by omega
      rw [hmax0] at h2
      have hco := mul_comm (L.tdiv ss.length) ((ss.length : Int))
      omega

end LoadBalancer

namespace LoadBalancer

theorem rr_visited_eq_rotate (startIdx n : Nat) :
    (List.range n).map (fun i => (startIdx + i) % n) =
      (List.range n).rotate (startIdx % n) := by
  apply List.ext_getElem
  · simp
  · intro j h1 h2
    rw [List.getElem_map, List.getElem_rotate]
    simp only [List.getElem_range, List.length_range]
    have hj : j < n := by simpa using h1
    rw [Nat.add_mod_mod, Nat.add_comm]

theorem rr_visited_nodup (startIdx n : Nat) :
    ((List.range n).map (fun i => (startIdx + i) % n)).Nodup := by
  rw [rr_visited_eq_rotate]
  exact List.nodup_rotate.mpr (List.nodup_range n)

theorem rr_visited_mem (startIdx n : Nat) (j : Nat) (hj : j < n) :
    j ∈ (List.range n).map (fun i => (startIdx + i) % n) := by
  rw [rr_visited_eq_rotate]
  exact List.mem_rotate.mpr (List.mem_range.mpr hj)

theorem rr_fold_char_rem0 (startIdx n : Nat) (base : Int) :
    ∀ (L : List Nat) (ss : List Server), ss.length = n →
      ((L.map (fun i => (startIdx + i) % n)).Nodup) →
      ∀ j (hj : j < ss.length),
        ((L.foldl (rrStep startIdx n base) (ss, 0)).1)[j]? =
          some (if j ∈ L.map (fun i => (startIdx + i) % n) then
                  (if ss[j].online = true then
                    ss[j].setCurrentLoad (ss[j].currentLoad + base)
                  else ss[j])
                else ss[j]) := by
  intro L
  induction L with
  | nil =>
    intro ss hlen hnd j hj
    simp [List.getElem?_eq_getElem hj]
  | cons i rest ih =>
    intro ss hlen hnd j hj
    rw [List.foldl_cons]
    have hn : 0 < n := by omega
    have hidx : (startIdx + i) % n < ss.length := by
      rw [hlen]; exact Nat.mod_lt _ hn
    have hs : ss[(startIdx + i) % n]? = some (ss[(startIdx + i) % n]) :=
      List.getElem?_eq_getElem hidx
    simp only [List.map_cons, List.nodup_cons] at hnd
    obtain ⟨hhead, hndrest⟩ := hnd
    by_cases hon : ss[(startIdx + i) % n].online = true
    · have hstep : rrStep startIdx n base (ss, 0) i =
          (ss.set ((startIdx + i) % n)
            (ss[(startIdx + i) % n].setCurrentLoad
              (ss[(startIdx + i) % n].currentLoad + base)), 0) := by
        simp only [rrStep, hs]
        norm_num [hon]
      rw [hstep]
      have hlen2 : (ss.set ((startIdx + i) % n)
          (ss[(startIdx + i) % n].setCurrentLoad
            (ss[(startIdx + i) % n].currentLoad + base))).length = n := by
        simpa using hlen
      have hj2 : j < (ss.set ((startIdx + i) % n)
          (ss[(startIdx + i) % n].setCurrentLoad
            (ss[(startIdx + i) % n].currentLoad + base))).length := by
        simpa using hj
      rw [ih _ hlen2 hndrest j hj2]
      by_cases hji : j = (startIdx + i) % n
      · subst hji
        have hnotrest : (startIdx + i) % n ∉ rest.map (fun i => (startIdx + i) % n) := by
          simpa using hhead
        rw [if_neg hnotrest, if_pos (by simp), if_pos hon]
        congr 1
        rw [List.getElem_set]
        rw [if_pos rfl]
      · have hset : (ss.set ((startIdx + i) % n)
            (ss[(startIdx + i) % n].setCurrentLoad
              (ss[(startIdx + i) % n].currentLoad + base)))[j] = ss[j] := by
          rw [List.getElem_set]
          rw [if_neg (by omega)]
        rw [hset]
        have hmemc : (j ∈ (i :: rest).map (fun i => (startIdx + i) % n)) ↔
            (j ∈ rest.map (fun i => (startIdx + i) % n)) := by
          simp only [List.map_cons, List.mem_cons]
          constructor
          · rintro (h | h)
            · exact absurd h.symm (by omega)
            · exact h
          · exact Or.inr
        by_cases hjr : j ∈ rest.map (fun i => (startIdx + i) % n)
        · rw [if_pos hjr, if_pos (hmemc.mpr hjr)]
        · rw [if_neg hjr, if_neg (fun h => hjr (hmemc.mp h))]
    · have hstep : rrStep startIdx n base (ss, 0) i = (ss, 0) := by
        simp only [rrStep, hs]
        simp [hon]
      rw [hstep]
      rw [ih _ hlen hndrest j hj]
      by_cases hji : j = (startIdx + i) % n
      · subst hji
        have hnotrest : (startIdx + i) % n ∉ rest.map (fun i => (startIdx + i) % n) := by
          simpa using hhead
        rw [if_neg hnotrest, if_pos (by simp), if_neg hon]
      · have hmemc : (j ∈ (i :: rest).map (fun i => (startIdx + i) % n)) ↔
            (j ∈ rest.map (fun i => (startIdx + i) % n)) := by
          simp only [List.map_cons, List.mem_cons]
          constructor
          · rintro (h | h)
            · exact absurd h.symm (by omega)
            · exact h
          · exact Or.inr
        by_cases hjr : j ∈ rest.map (fun i => (startIdx + i) % n)
        · rw [if_pos hjr, if_pos (hmemc.mpr hjr)]
        · rw [if_neg hjr, if_neg (fun h => hjr (hmemc.mp h))]

end LoadBalancer

/-- Claim C2 (amended): Round Robin computes its base share as
`loadAmount div totalServerCount` — the total number of servers, offline
ones included, not the online count (see the counterexample) — and hands
the remainder out one unit per online server from the first online index.
Consequently, whenever `loadAmount` is divisible by the **total** server
count and at least one server is online, every online server receives
exactly `loadAmount / totalServerCount` and offline servers receive
nothing (their base shares are dropped). -/
theorem c2_round_robin_amended (ss : List Server) (L : Int)
    (hL : 0 ≤ L) (hdvd : (ss.length : Int) ∣ L)
    (hpos : ∀ s ∈ ss, 0 ≤ s.currentLoad)
    (honline : ∃ s ∈ ss, s.online = true) :
    ∀ j (hj : j < ss.length),
      ((LoadBalancer.distributeLoadRoundRobin ss L).1)[j]? =
        some (if ss[j].online = true
          then ss[j].setCurrentLoad (ss[j].currentLoad + L.tdiv ss.length)
          else ss[j]) ∧
      (ss[j].online = true →
        (((LoadBalancer.distributeLoadRoundRobin ss L).1)[j]?.map (·.currentLoad)) =
          some (ss[j].currentLoad + L.tdiv ss.length)) := by
  intro j hj
  have hemp : ss.isEmpty = false := by
    cases ss with
    | nil => simp at hj
    | cons a l => rfl
  have hrem : L.tmod ss.length = 0 := by
    rw [Int.tmod_eq_emod hL (by positivity)]
    exact Int.emod_eq_zero_of_dvd hdvd
  cases hfind : ss.findIdx? (·.online) with
  | none =>
    exfalso
    obtain ⟨s, hsmem, hson⟩ := honline
    have := List.findIdx?_eq_none_iff.mp hfind s hsmem
    simp [hson] at this
  | some startIdx =>
    have hmain : ((LoadBalancer.distributeLoadRoundRobin ss L).1)[j]? =
        some (if ss[j].online = true
          then ss[j].setCurrentLoad (ss[j].currentLoad + L.tdiv ss.length)
          else ss[j]) := by
      simp only [LoadBalancer.distributeLoadRoundRobin, hemp, Bool.false_eq_true,
        if_false, hfind, hrem]
      rw [LoadBalancer.rr_fold_char_rem0 startIdx ss.length (L.tdiv ss.length)
        (List.range ss.length) ss rfl
        (LoadBalancer.rr_visited_nodup startIdx ss.length) j hj]
      rw [if_pos (LoadBalancer.rr_visited_mem startIdx ss.length j hj)]
    refine ⟨hmain, ?_⟩
    intro hon
    rw [hmain, if_pos hon]
    have hbase : 0 ≤ L.tdiv ss.length :=
      Int.tdiv_nonneg hL (by positivity)
    have hload : 0 ≤ ss[j].currentLoad := hpos _ (List.getElem_mem hj)
    simp only [Option.map_some']
    congr 1
    unfold Server.setCurrentLoad
    rw [if_neg (by omega)]

/-- Witness for C2 (amended): two online servers of capacity 100, 10 units:
the first server ends with exactly 5 = 10 div 2 units. -/
theorem c2_round_robin_amended_witness :
    ((LoadBalancer.distributeLoadRoundRobin
        [⟨1, 100, 0, 1, true⟩, ⟨2, 100, 0, 1, true⟩] 10).1)[0]?.map (·.currentLoad) =
      some 5 := by
  have h := (c2_round_robin_amended [⟨1, 100, 0, 1, true⟩, ⟨2, 100, 0, 1, true⟩] 10
    (by decide) (by decide) (by decide) ⟨⟨1, 100, 0, 1, true⟩, by decide, rfl⟩
    0 (by decide)).2 rfl
  rw [h]
  decide

theorem ratTrunc_eq_floor (q : Rat) (hq : 0 ≤ q) : ratTrunc q = ⌊q⌋ := by
  unfold ratTrunc
  rw [Rat.floor_def]
  exact Int.tdiv_eq_ediv (Rat.num_nonneg.mpr hq) (by positivity)

theorem ratTrunc_nonneg (q : Rat) (hq : 0 ≤ q) : 0 ≤ ratTrunc q := by
  rw [ratTrunc_eq_floor q hq]
  exact Int.floor_nonneg.mpr hq

theorem ratTrunc_le (q : Rat) (hq : 0 ≤ q) : (ratTrunc q : Rat) ≤ q := by
  rw [ratTrunc_eq_floor q hq]
  exact Int.floor_le q

theorem ratTrunc_intCast (c : Int) : ratTrunc (c : Rat) = c := by
  unfold ratTrunc
  rw [Rat.num_intCast, Rat.den_intCast]
  simp

namespace LoadBalancer

theorem woPass_length (ss : List Server) :
    ∀ (L : List Nat) (acc : List Int × Int × Bool),
      (L.foldl (woPassStep ss) acc).1.length = acc.1.length := by
  intro L
  induction L with
  | nil => intro acc; rfl
  | cons i rest ih =>
    intro acc
    rw [List.foldl_cons, ih]
    unfold woPassStep
    split
    · split
      · split
        · rfl
        · split <;> simp
      · rfl
    · rfl

theorem woPass_flag_mono (ss : List Server) :
    ∀ (L : List Nat) (acc : List Int × Int × Bool), acc.2.2 = true →
      (L.foldl (woPassStep ss) acc).2.2 = true := by
  intro L
  induction L with
  | nil => intro acc h; exact h
  | cons i rest ih =>
    intro acc h
    rw [List.foldl_cons]
    rcases woPassStep_cases ss acc i with hc | ⟨_, _, hc⟩
    · rw [hc]; exact ih acc h
    · apply ih
      exact hc

theorem woPass_flag_false_eq (ss : List Server) :
    ∀ (L : List Nat) (acc : List Int × Int × Bool),
      (L.foldl (woPassStep ss) acc).2.2 = false →
      L.foldl (woPassStep ss) acc = acc := by
  intro L
  induction L with
  | nil => intro acc _; rfl
  | cons i rest ih =>
    intro acc h
    rw [List.foldl_cons] at h ⊢
    rcases woPassStep_cases ss acc i with hc | ⟨_, _, hc⟩
    · rw [hc] at h ⊢; exact ih acc h
    · exfalso
      have := woPass_flag_mono ss rest _ hc
      rw [this] at h
      cases h

theorem zipWith_set_right (f : Server → Int → Int) (ss : List Server)
    (ideals : List Int) (i : Nat) (v : Int) (hi : i < ss.length)
    (hlen : ideals.length = ss.length) :
    List.zipWith f ss (ideals.set i v) =
      (List.zipWith f ss ideals).set i (f ss[i] (v)) := by
  apply List.ext_getElem
  · simp
  · intro j h1 h2
    rw [List.getElem_zipWith, List.getElem_set, List.getElem_set]
    have hj : j < ss.length := by
      simp only [List.length_zipWith, List.length_set] at h1
      omega
    by_cases hij : i = j
    · subst hij
      rw [if_pos rfl, if_pos rfl]
    · rw [if_neg hij, if_neg hij, List.getElem_zipWith]

theorem sumHeadroom_set (ss : List Server) (ideals : List Int) (i : Nat) (v : Int)
    (hi : i < ss.length) (hlen : ideals.length = ss.length) :
    sumHeadroom ss (ideals.set i v) = sumHeadroom ss ideals + (ideals[i] - v) := by
  unfold sumHeadroom
  rw [zipWith_set_right _ _ _ _ _ hi hlen, List.sum_set']
  have hilt : i < (List.zipWith (fun s d => s.getAvailableCapacity - d) ss ideals).length := by
    simp only [List.length_zipWith]
    omega
  rw [dif_pos hilt, List.getElem_zipWith]
  ring

theorem sumHeadroom_eq (ss : List Server) :
    ∀ (ideals : List Int), ideals.length = ss.length →
      sumHeadroom ss ideals = sumAvailable ss - ideals.sum := by
  induction ss with
  | nil =>
    intro ideals hlen
    rw [List.length_nil, List.length_eq_zero] at hlen
    subst hlen
    rfl
  | cons s rest ih =>
    intro ideals hlen
    cases ideals with
    | nil => simp at hlen
    | cons d ds =>
      simp only [List.length_cons, Nat.succ.injEq] at hlen
      unfold sumHeadroom sumAvailable at ih ⊢
      rw [List.zipWith_cons_cons, List.sum_cons, List.map_cons, List.sum_cons,
        List.sum_cons, ih ds hlen]
      ring

theorem woPass_invariants (ss : List Server) :
    ∀ (L : List Nat) (acc : List Int × Int × Bool),
      acc.1.length = ss.length → (∀ x ∈ acc.1, 0 ≤ x) → 0 ≤ acc.2.1 →
      (∀ x ∈ (L.foldl (woPassStep ss) acc).1, 0 ≤ x) ∧
      0 ≤ (L.foldl (woPassStep ss) acc).2.1 ∧
      (L.foldl (woPassStep ss) acc).1.sum + (L.foldl (woPassStep ss) acc).2.1 =
        acc.1.sum + acc.2.1 ∧
      sumHeadroom ss (L.foldl (woPassStep ss) acc).1 -
          (L.foldl (woPassStep ss) acc).2.1 =
        sumHeadroom ss acc.1 - acc.2.1 := by
  intro L
  induction L with
  | nil =>
    intro acc h1 h2 h3
    exact ⟨h2, h3, rfl, rfl⟩
  | cons i rest ih =>
    intro acc h1 h2 h3
    rw [List.foldl_cons]
    have hsteplen : (woPassStep ss acc i).1.length = ss.length := by
      rw [← h1]
      unfold woPassStep
      split
      · split
        · split
          · rfl
          · split <;> simp
        · rfl
      · rfl
    -- characterize the step finely
    have hstep : woPassStep ss acc i = acc ∨
        (∃ s d, ss[i]? = some s ∧ acc.1[i]? = some d ∧ 0 < acc.2.1 ∧
          woPassStep ss acc i = (acc.1.set i (d + 1), acc.2.1 - 1, true)) := by
      unfold woPassStep
      split
      · rename_i hrem
        split
        · rename_i s d heq1 heq2
          split
          · exact Or.inl rfl
          · split
            · exact Or.inr ⟨s, d, heq1, heq2, hrem, rfl⟩
            · exact Or.inl rfl
        · exact Or.inl rfl
      · exact Or.inl rfl
    rcases hstep with hc | ⟨s, d, hs, hd, hrem, hc⟩
    · rw [hc]; exact ih acc h1 h2 h3
    · rw [hc]
      obtain ⟨hdi, hdeq⟩ := List.getElem?_eq_some.mp hd
      have hdi2 : i < ss.length := by omega
      obtain ⟨ih1, ih2, ih3, ih4⟩ := ih (acc.1.set i (d + 1), acc.2.1 - 1, true)
        (by simpa using h1)
        (by
          intro x hx
          rcases List.mem_or_eq_of_mem_set hx with h | h
          · exact h2 x h
          · have : 0 ≤ d := h2 d (hdeq ▸ List.getElem_mem hdi)
            omega)
        (by simp only; omega)
      refine ⟨ih1, ih2, ?_, ?_⟩
      · rw [ih3]
        simp only
        rw [List.sum_set']
        rw [dif_pos hdi, hdeq]
        ring
      · rw [ih4]
        simp only
        rw [sumHeadroom_set ss acc.1 i (d + 1) hdi2 h1, hdeq]
        ring

theorem woPass_no_fire (ss : List Server) :
    ∀ (L : List Nat) (acc : List Int × Int × Bool), acc.2.2 = false →
      (L.foldl (woPassStep ss) acc).2.2 = false →
      ∀ i ∈ L, ∀ (s : Server) (d : Int), 0 < acc.2.1 → ss[i]? = some s →
        acc.1[i]? = some d → s.online = true →
        s.getAvailableCapacity - d ≤ 0 := by
  intro L
  induction L with
  | nil =>
    intro acc _ _ i hi
    simp at hi
  | cons j rest ih =>
    intro acc hf h2 i hi s d hrem hs hd hon
    rw [List.foldl_cons] at h2
    have hstepacc : woPassStep ss acc j = acc := by
      rcases woPassStep_cases ss acc j with hc | ⟨_, _, hc⟩
      · exact hc
      · exfalso
        have := woPass_flag_mono ss rest _ hc
        rw [this] at h2
        cases h2
    rcases List.mem_cons.mp hi with hij | hirest
    · subst hij
      by_contra hpos2
      push_neg at hpos2
      have hfire : woPassStep ss acc i = (acc.1.set i (d + 1), acc.2.1 - 1, true) := by
        unfold woPassStep
        rw [if_pos hrem, hs, hd]
        simp [hon, hpos2]
      rw [hfire] at hstepacc
      have hflag := congrArg (fun p => p.2.2) hstepacc
      simp only at hflag
      rw [hf] at hflag
      cases hflag
    · exact ih acc hf (hstepacc ▸ h2) i hirest s d hrem hs hd hon

theorem woLoop_invariants (ss : List Server) :
    ∀ (fuel : Nat) (ideals : List Int) (remaining : Int),
      ideals.length = ss.length → (∀ x ∈ ideals, 0 ≤ x) → 0 ≤ remaining →
      remaining.toNat ≤ fuel →
      (woLoop ss ideals remaining fuel).1.length = ss.length ∧
      (∀ x ∈ (woLoop ss ideals remaining fuel).1, 0 ≤ x) ∧
      0 ≤ (woLoop ss ideals remaining fuel).2 ∧
      (woLoop ss ideals remaining fuel).1.sum + (woLoop ss ideals remaining fuel).2 =
        ideals.sum + remaining ∧
      sumHeadroom ss (woLoop ss ideals remaining fuel).1 -
          (woLoop ss ideals remaining fuel).2 =
        sumHeadroom ss ideals - remaining ∧
      (0 < (woLoop ss ideals remaining fuel).2 →
        ∀ (j : Nat) (s : Server) (d : Int), ss[j]? = some s →
          (woLoop ss ideals remaining fuel).1[j]? = some d →
          s.online = true → s.getAvailableCapacity - d ≤ 0) := by
  intro fuel
  induction fuel with
  | zero =>
    intro ideals remaining hlen hnn h0 hf
    have h00 : remaining = 0 := by omega
    subst h00
    have hres : woLoop ss ideals 0 0 = (ideals, 0) := rfl
    rw [hres]
    exact ⟨hlen, hnn, le_refl _, by ring, by ring, fun h => absurd h (by norm_num)⟩
  | succ fuel ih =>
    intro ideals remaining hlen hnn h0 hf
    simp only [woLoop]
    by_cases hr : 0 < remaining
    · simp only [if_pos hr]
      have hpl := woPass_length ss (List.range ss.length) (ideals, remaining, false)
      simp only at hpl
      obtain ⟨hp1, hp2, hp3, hp4⟩ := woPass_invariants ss (List.range ss.length)
        (ideals, remaining, false) hlen hnn h0
      simp only at hp2 hp3 hp4
      by_cases hfl :
          ((List.range ss.length).foldl (woPassStep ss) (ideals, remaining, false)).2.2 = true
      · simp only [hfl, if_true]
        have hlt := woPass_flag_lt ss (List.range ss.length) (ideals, remaining, false) hfl rfl
        simp only at hlt
        obtain ⟨ih1, ih2, ih3, ih4, ih5, ih6⟩ := ih
          ((List.range ss.length).foldl (woPassStep ss) (ideals, remaining, false)).1
          ((List.range ss.length).foldl (woPassStep ss) (ideals, remaining, false)).2.1
          (by rw [hpl]; exact hlen) hp1 hp2 (by omega)
        refine ⟨ih1, ih2, ih3, ?_, ?_, ih6⟩
        · rw [ih4]
          omega
        · rw [ih5]
          omega
      · simp only [hfl, Bool.false_eq_true, if_false]
        have heq := woPass_flag_false_eq ss (List.range ss.length) (ideals, remaining, false)
          (by simpa using hfl)
        rw [heq]
        refine ⟨hlen, hnn, h0, rfl, rfl, ?_⟩
        intro hpos j s d hs hd hon
        have hjlt : j < ss.length := by
          obtain ⟨hj, _⟩ := List.getElem?_eq_some.mp hs
          exact hj
        have := woPass_no_fire ss (List.range ss.length) (ideals, remaining, false)
          rfl (by simpa using hfl) j (List.mem_range.mpr hjlt) s d (by simpa using hr) hs
        exact this hd hon
    · have h00 : remaining = 0 := by omega
      subst h00
      simp only [if_neg hr]
      exact ⟨hlen, hnn, le_refl _, by ring, by ring, fun h => absurd h (by norm_num)⟩

theorem woIdealLoads_length (ss : List Server) (L : Int) :
    (woIdealLoads ss L).length = ss.length := by
  unfold woIdealLoads
  rw [List.length_map]

theorem woIdealLoads_spec (ss : List Server) (L : Int)
    (hL : 0 ≤ L)
    (hload : ∀ s ∈ ss, 0 ≤ s.currentLoad)
    (hcap : ∀ s ∈ ss, s.online = true → s.currentLoad ≤ s.capacity)
    (hmult : ∀ s ∈ ss, 0 ≤ s.performanceMultiplier)
    (htot : 0 < totalEffectiveCapacity ss) :
    (∀ x ∈ woIdealLoads ss L, 0 ≤ x) ∧ (woIdealLoads ss L).sum ≤ L := by
  have heff : ∀ s ∈ ss, 0 ≤ s.getEffectiveCapacity := by
    intro s hs
    unfold Server.getEffectiveCapacity
    split
    · exact le_refl 0
    · rename_i hso
      simp only [Bool.not_eq_true'] at hso
      have h1 := hload s hs
      have h2 := hcap s hs (by simpa using hso)
      have h3 := hmult s hs
      have hc : (0 : Rat) ≤ (s.capacity : Rat) := by
        exact_mod_cast le_trans h1 h2
      positivity
  have harg : ∀ s ∈ ss, s.online = true →
      0 ≤ s.getEffectiveCapacity / totalEffectiveCapacity ss * (L : Rat) := by
    intro s hs _
    have h1 := heff s hs
    have hL2 : (0 : Rat) ≤ (L : Rat) := by exact_mod_cast hL
    positivity
  constructor
  · intro x hx
    unfold woIdealLoads at hx
    obtain ⟨s, hsmem, rfl⟩ := List.mem_map.mp hx
    by_cases hon : s.online = true
    · simp only [hon, Bool.not_true, Bool.false_eq_true, if_false]
      have htr : 0 ≤ ratTrunc (s.getEffectiveCapacity / totalEffectiveCapacity ss * (L : Rat)) :=
        ratTrunc_nonneg _ (harg s hsmem hon)
      have hav : 0 ≤ s.getAvailableCapacity := by
        unfold Server.getAvailableCapacity
        rw [hon]
        simp only [Bool.not_true, Bool.false_eq_true, if_false]
        have := hcap s hsmem hon
        omega
      split <;> assumption
    · simp only [Bool.not_eq_true] at hon
      simp [hon]
  · -- sum bound via the rational proportional shares
    have hpoint : ∀ s ∈ ss,
        ((fun s : Server =>
          if !s.online then (0 : Int)
          else
            let ideal := ratTrunc (s.getEffectiveCapacity / totalEffectiveCapacity ss * (L : Rat))
            if ideal > s.getAvailableCapacity then s.getAvailableCapacity else ideal) s : Rat) ≤
        (fun s : Server => (if s.online then s.getEffectiveCapacity else 0) * ((L : Rat) / totalEffectiveCapacity ss)) s := by
      intro s hs
      by_cases hon : s.online = true
      · simp only [hon, Bool.not_true, Bool.false_eq_true, if_false, if_true]
        have hcast : ∀ a b : Int, a ≤ b → (a : Rat) ≤ (b : Rat) := by
          intro a b h; exact_mod_cast h
        have h1 : (ratTrunc (s.getEffectiveCapacity / totalEffectiveCapacity ss * (L : Rat)) : Rat)
            ≤ s.getEffectiveCapacity / totalEffectiveCapacity ss * (L : Rat) :=
          ratTrunc_le _ (harg s hs hon)
      -- either branch is at most the uncapped rational share
        have h2 : (s.getEffectiveCapacity / totalEffectiveCapacity ss * (L : Rat)) =
            s.getEffectiveCapacity * ((L : Rat) / totalEffectiveCapacity ss) := by
          field_simp
        split
        · rename_i hgt
          calc ((s.getAvailableCapacity : Rat)) ≤
              (ratTrunc (s.getEffectiveCapacity / totalEffectiveCapacity ss * (L : Rat)) : Rat) := by
                exact_mod_cast le_of_lt hgt
            _ ≤ _ := by rw [← h2]; exact h1
        · rw [← h2]; exact h1
      · simp only [Bool.not_eq_true] at hon
        simp [hon]
  -- assemble: cast the integer sum and compare with the rational sum
    have hsum : ((woIdealLoads ss L).sum : Rat) ≤
        (ss.map (fun s => (if s.online then s.getEffectiveCapacity else 0) * ((L : Rat) / totalEffectiveCapacity ss))).sum := by
      unfold woIdealLoads
      rw [Int.cast_list_sum, List.map_map]
      exact List.sum_le_sum hpoint
    rw [List.sum_map_mul_right] at hsum
    have htotsum : (ss.map (fun s => if s.online then s.getEffectiveCapacity else 0)).sum =
        totalEffectiveCapacity ss := rfl
    rw [htotsum] at hsum
    have hfin : totalEffectiveCapacity ss * ((L : Rat) / totalEffectiveCapacity ss) = (L : Rat) := by
      field_simp
    rw [hfin] at hsum
    exact_mod_cast hsum

theorem wo_apply_total :
    ∀ (ss : List Server) (ideals : List Int), ideals.length = ss.length →
      (∀ x ∈ ideals, 0 ≤ x) → (∀ s ∈ ss, 0 ≤ s.currentLoad) →
      getTotalLoad (List.zipWith
        (fun s d => if 0 < d then s.setCurrentLoad (s.currentLoad + d) else s) ss ideals) =
        getTotalLoad ss + ideals.sum := by
  intro ss
  induction ss with
  | nil =>
    intro ideals hlen _ _
    rw [List.length_nil, List.length_eq_zero] at hlen
    subst hlen
    rfl
  | cons s rest ih =>
    intro ideals hlen hnn hload
    cases ideals with
    | nil => simp at hlen
    | cons d ds =>
      simp only [List.length_cons, Nat.succ.injEq] at hlen
      rw [List.zipWith_cons_cons]
      unfold getTotalLoad at ih ⊢
      rw [List.map_cons, List.sum_cons, List.map_cons, List.sum_cons, List.sum_cons,
        ih ds hlen (fun x hx => hnn x (by simp [hx])) (fun t ht => hload t (by simp [ht]))]
      have hd0 : 0 ≤ d := hnn d (by simp)
      have hs0 : 0 ≤ s.currentLoad := hload s (by simp)
      by_cases hd : 0 < d
      · rw [if_pos hd]
        unfold Server.setCurrentLoad
        rw [if_neg (by omega)]
        simp only
        ring
      · rw [if_neg hd]
        have : d = 0 := by omega
        subst this
        ring

theorem wo_apply_frame :
    ∀ (ss : List Server) (ideals : List Int), ideals.length = ss.length →
      (List.zipWith
        (fun s d => if 0 < d then s.setCurrentLoad (s.currentLoad + d) else s) ss ideals).map
          serverFrame = ss.map serverFrame := by
  intro ss
  induction ss with
  | nil => intro ideals _; simp
  | cons s rest ih =>
    intro ideals hlen
    cases ideals with
    | nil => simp at hlen
    | cons d ds =>
      simp only [List.length_cons, Nat.succ.injEq] at hlen
      rw [List.zipWith_cons_cons, List.map_cons, List.map_cons, ih ds hlen]
      congr 1
      split <;> rfl

theorem woLoop_length (ss : List Server) :
    ∀ (fuel : Nat) (ideals : List Int) (remaining : Int),
      (woLoop ss ideals remaining fuel).1.length = ideals.length := by
  intro fuel
  induction fuel with
  | zero => intro ideals remaining; rfl
  | succ fuel ih =>
    intro ideals remaining
    simp only [woLoop]
    by_cases hr : 0 < remaining
    · simp only [if_pos hr]
      have hpl := woPass_length ss (List.range ss.length) (ideals, remaining, false)
      simp only at hpl
      split
      · rw [ih, hpl]
      · exact hpl
    · simp [hr]

theorem wo_frame (ss : List Server) (L : Int) :
    ((distributeLoadWeightedOptimization ss L).1).map serverFrame = ss.map serverFrame := by
  unfold distributeLoadWeightedOptimization
  split
  · rfl
  · split
    · rfl
    · apply wo_apply_frame
      rw [woLoop_length, woIdealLoads_length]

theorem wo_conservation (ss : List Server) (L : Int) (hL : 0 ≤ L)
    (hload : ∀ s ∈ ss, 0 ≤ s.currentLoad)
    (hcap : ∀ s ∈ ss, s.online = true → s.currentLoad ≤ s.capacity)
    (hmult : ∀ s ∈ ss, 0 ≤ s.performanceMultiplier) :
    getTotalLoad (distributeLoadWeightedOptimization ss L).1 +
        (distributeLoadWeightedOptimization ss L).2 =
      getTotalLoad ss + L := by
  unfold distributeLoadWeightedOptimization
  split
  · ring
  · split
    · ring
    · rename_i hne htot
      push_neg at htot
      obtain ⟨hnn0, hsum0⟩ := woIdealLoads_spec ss L hL hload hcap hmult htot
      have hrem0 : 0 ≤ L - (woIdealLoads ss L).sum := by omega
      obtain ⟨hw1, hw2, hw3, hw4, hw5, hw6⟩ := woLoop_invariants ss
        (L - (woIdealLoads ss L).sum).toNat (woIdealLoads ss L)
        (L - (woIdealLoads ss L).sum) (woIdealLoads_length ss L) hnn0 hrem0 (le_refl _)
      have happ := wo_apply_total ss
        (woLoop ss (woIdealLoads ss L) (L - (woIdealLoads ss L).sum)
          (L - (woIdealLoads ss L).sum).toNat).1
        (by rw [hw1]) hw2 hload
      simp only
      rw [happ]
      split
      · omega
      · rename_i hnr
        push_neg at hnr
        have : (woLoop ss (woIdealLoads ss L) (L - (woIdealLoads ss L).sum)
            (L - (woIdealLoads ss L).sum).toNat).2 = 0 := by omega
        omega

theorem wo_full (ss : List Server) (L : Int) (hL : 0 ≤ L)
    (hload : ∀ s ∈ ss, 0 ≤ s.currentLoad)
    (hcap : ∀ s ∈ ss, s.online = true → s.currentLoad ≤ s.capacity)
    (hmult : ∀ s ∈ ss, 0 ≤ s.performanceMultiplier)
    (hcapsum : L ≤ sumAvailable ss)
    (htot : 0 < totalEffectiveCapacity ss) :
    (distributeLoadWeightedOptimization ss L).2 = 0 := by
  unfold distributeLoadWeightedOptimization
  split
  · rename_i hemp
    exfalso
    have : ss = [] := by simpa [List.isEmpty_iff] using hemp
    subst this
    have : totalEffectiveCapacity [] = 0 := rfl
    rw [this] at htot
    exact absurd htot (by norm_num)
  · split
    · rename_i htot2
      exact absurd htot (by simpa using htot2)
    · rename_i hne htot2
      obtain ⟨hnn0, hsum0⟩ := woIdealLoads_spec ss L hL hload hcap hmult htot
      have hrem0 : 0 ≤ L - (woIdealLoads ss L).sum := by omega
      obtain ⟨hw1, hw2, hw3, hw4, hw5, hw6⟩ := woLoop_invariants ss
        (L - (woIdealLoads ss L).sum).toNat (woIdealLoads ss L)
        (L - (woIdealLoads ss L).sum) (woIdealLoads_length ss L) hnn0 hrem0 (le_refl _)
      have hzero : (woLoop ss (woIdealLoads ss L) (L - (woIdealLoads ss L).sum)
          (L - (woIdealLoads ss L).sum).toNat).2 = 0 := by
        by_contra hne2
        have hpos : 0 < (woLoop ss (woIdealLoads ss L) (L - (woIdealLoads ss L).sum)
            (L - (woIdealLoads ss L).sum).toNat).2 := by omega
        have hno := hw6 hpos
        have hsnp : sumHeadroom ss (woLoop ss (woIdealLoads ss L)
            (L - (woIdealLoads ss L).sum) (L - (woIdealLoads ss L).sum).toNat).1 ≤ 0 := by
          apply int_list_sum_nonpos
          intro x hx
          obtain ⟨j, hj, rfl⟩ := List.mem_iff_getElem.mp hx
          rw [List.getElem_zipWith]
          have hjss : j < ss.length := by
            simp only [List.length_zipWith] at hj
            omega
          have hjres : j < (woLoop ss (woIdealLoads ss L) (L - (woIdealLoads ss L).sum)
              (L - (woIdealLoads ss L).sum).toNat).1.length := by
            simp only [List.length_zipWith] at hj
            omega
          by_cases hon : ss[j].online = true
          · exact hno j ss[j] _ (List.getElem?_eq_getElem hjss)
              (List.getElem?_eq_getElem hjres) hon
          · have hoff : ss[j].getAvailableCapacity = 0 := by
              unfold Server.getAvailableCapacity
              simp only [Bool.not_eq_true] at hon
              simp [hon]
            have hd0 : 0 ≤ (woLoop ss (woIdealLoads ss L) (L - (woIdealLoads ss L).sum)
                (L - (woIdealLoads ss L).sum).toNat).1[j] :=
              hw2 _ (List.getElem_mem hjres)
            omega
        have hhr0 : sumHeadroom ss (woIdealLoads ss L) =
            sumAvailable ss - (woIdealLoads ss L).sum :=
          sumHeadroom_eq ss (woIdealLoads ss L) (woIdealLoads_length ss L)
        omega
      simp only
      rw [hzero]
      norm_num

end LoadBalancer

/-- Claim C1 (amended): the conservation law "per-server deltas plus the
reported undistributed amount equal the requested loadAmount" holds for
Least Loaded over every server set with non-negative loads, for Weighted
Optimization when additionally no online server is over capacity and
multipliers are non-negative, and for Round Robin only when every server
is online; with offline servers present, Round Robin silently drops the
offline servers' base shares (see the counterexample). -/
theorem c1_conservation_amended (ss : List Server) (L : Int) (hL : 0 ≤ L)
    (hload : ∀ s ∈ ss, 0 ≤ s.currentLoad) :
    (LoadBalancer.getTotalLoad (LoadBalancer.distributeLoadLeastLoaded ss L).1 +
        (LoadBalancer.distributeLoadLeastLoaded ss L).2 =
      LoadBalancer.getTotalLoad ss + L) ∧
    ((∀ s ∈ ss, s.online = true → s.currentLoad ≤ s.capacity) →
      (∀ s ∈ ss, 0 ≤ s.performanceMultiplier) →
      LoadBalancer.getTotalLoad (LoadBalancer.distributeLoadWeightedOptimization ss L).1 +
          (LoadBalancer.distributeLoadWeightedOptimization ss L).2 =
        LoadBalancer.getTotalLoad ss + L) ∧
    ((∀ s ∈ ss, s.online = true) →
      LoadBalancer.getTotalLoad (LoadBalancer.distributeLoadRoundRobin ss L).1 +
          (LoadBalancer.distributeLoadRoundRobin ss L).2 =
        LoadBalancer.getTotalLoad ss + L) := by
  refine ⟨?_, ?_, ?_⟩
  · unfold LoadBalancer.distributeLoadLeastLoaded
    split
    · ring
    · exact (LoadBalancer.llLoop_conservation L.toNat ss L hL hload (le_refl _)).1
  · intro hcap hmult
    exact LoadBalancer.wo_conservation ss L hL hload hcap hmult
  · intro honl
    exact LoadBalancer.rr_conservation_online ss L honl hload hL

/-- Witness for C1 (amended) on one online server of capacity 10 with
load 3 receiving 12 units: Least Loaded reports 5 undistributed, Weighted
Optimization and Round Robin conserve as well. -/
theorem c1_conservation_amended_witness :
    (LoadBalancer.getTotalLoad
        (LoadBalancer.distributeLoadLeastLoaded [⟨1, 10, 3, 1, true⟩] 12).1 +
      (LoadBalancer.distributeLoadLeastLoaded [⟨1, 10, 3, 1, true⟩] 12).2 =
      LoadBalancer.getTotalLoad [⟨1, 10, 3, 1, true⟩] + 12) ∧
    (LoadBalancer.getTotalLoad
        (LoadBalancer.distributeLoadWeightedOptimization [⟨1, 10, 3, 1, true⟩] 12).1 +
      (LoadBalancer.distributeLoadWeightedOptimization [⟨1, 10, 3, 1, true⟩] 12).2 =
      LoadBalancer.getTotalLoad [⟨1, 10, 3, 1, true⟩] + 12) ∧
    (LoadBalancer.getTotalLoad
        (LoadBalancer.distributeLoadRoundRobin [⟨1, 10, 3, 1, true⟩] 12).1 +
      (LoadBalancer.distributeLoadRoundRobin [⟨1, 10, 3, 1, true⟩] 12).2 =
      LoadBalancer.getTotalLoad [⟨1, 10, 3, 1, true⟩] + 12) :=
  ⟨(c1_conservation_amended [⟨1, 10, 3, 1, true⟩] 12 (by decide) (by decide)).1,
   (c1_conservation_amended [⟨1, 10, 3, 1, true⟩] 12 (by decide) (by decide)).2.1
     (by decide) (by decide),
   (c1_conservation_amended [⟨1, 10, 3, 1, true⟩] 12 (by decide) (by decide)).2.2
     (by decide)⟩

namespace LoadBalancer

theorem getTotalLoad_cons (s : Server) (rest : List Server) :
    getTotalLoad (s :: rest) = s.currentLoad + getTotalLoad rest := by
  unfold getTotalLoad
  rw [List.map_cons, List.sum_cons]

theorem getTotalLoad_eraseIdx :
    ∀ (ss : List Server) (i : Nat) (hi : i < ss.length),
      getTotalLoad (ss.eraseIdx i) = getTotalLoad ss - ss[i].currentLoad := by
  intro ss
  induction ss with
  | nil => intro i hi; simp at hi
  | cons s rest ih =>
    intro i hi
    cases i with
    | zero =>
      rw [List.eraseIdx_cons_zero, getTotalLoad_cons]
      simp only [List.getElem_cons_zero]
      ring
    | succ i =>
      rw [List.eraseIdx_cons_succ, getTotalLoad_cons, getTotalLoad_cons,
        ih i (by simpa using hi)]
      simp only [List.getElem_cons_succ]
      ring

theorem rr_undist_online (ss : List Server) (L : Int)
    (hne : ss.isEmpty = false) (honl : ∀ s ∈ ss, s.online = true) :
    (distributeLoadRoundRobin ss L).2 = 0 := by
  unfold distributeLoadRoundRobin
  rw [hne]
  simp only [Bool.false_eq_true, if_false]
  cases hfind : ss.findIdx? (·.online) with
  | none =>
    exfalso
    cases ss with
    | nil => simp at hne
    | cons a l =>
      have h1 := List.findIdx?_eq_none_iff.mp hfind a (by simp)
      have h2 := honl a (by simp)
      rw [h2] at h1
      cases h1
  | some startIdx => rfl

theorem distributeLoadLeastLoaded_full (ss : List Server) (L : Int)
    (hL : 0 ≤ L) (hload : ∀ s ∈ ss, 0 ≤ s.currentLoad)
    (hcap : L ≤ sumAvailable ss) :
    (distributeLoadLeastLoaded ss L).2 = 0 := by
  unfold distributeLoadLeastLoaded
  split
  · rename_i hemp
    have : ss = [] := by simpa [List.isEmpty_iff] using hemp
    subst this
    have : sumAvailable ([] : List Server) = 0 := rfl
    simp only
    omega
  · exact llLoop_full L.toNat ss L hL hload hcap (le_refl _)

end LoadBalancer

/-- Claim C6 (amended): removing a found server captures its current load
and, when positive and servers remain, re-injects it through the active
policy; total system load is preserved provided the policy conserves it:
under Least Loaded whenever the remaining servers' summed available
capacity covers the removed load, and under Round Robin whenever every
remaining server is online.  (With an offline remaining server under Round
Robin part of the load is dropped — see the counterexample.) -/
theorem c6_removal_amended (ss : List Server) (serverId : Int) (i : Nat)
    (hidx : ss.findIdx? (fun s => s.id = serverId) = some i)
    (hi : i < ss.length)
    (hload : ∀ s ∈ ss, 0 ≤ s.currentLoad)
    (hrem : (ss.eraseIdx i).isEmpty = false) :
    (0 < ss[i].currentLoad →
      ∀ alg, LoadBalancer.removeServer alg ss serverId =
        ((LoadBalancer.addSystemLoad alg (ss.eraseIdx i) ss[i].currentLoad).1, true)) ∧
    (ss[i].currentLoad ≤ LoadBalancer.sumAvailable (ss.eraseIdx i) →
      LoadBalancer.getTotalLoad (LoadBalancer.removeServer .LEAST_LOADED ss serverId).1 =
        LoadBalancer.getTotalLoad ss) ∧
    ((∀ s ∈ ss.eraseIdx i, s.online = true) →
      LoadBalancer.getTotalLoad (LoadBalancer.removeServer .ROUND_ROBIN ss serverId).1 =
        LoadBalancer.getTotalLoad ss) := by
  have hgd : (ss[i]?).getD default = ss[i] := by
    rw [List.getElem?_eq_getElem hi]
    rfl
  have hloadrem : ∀ s ∈ ss.eraseIdx i, 0 ≤ s.currentLoad :=
    fun s hs => hload s (List.mem_of_mem_eraseIdx hs)
  have htot := LoadBalancer.getTotalLoad_eraseIdx ss i hi
  have hremne : ¬ (ss.eraseIdx i).isEmpty = true := by rw [hrem]; exact Bool.false_ne_true
  refine ⟨?_, ?_, ?_⟩
  · intro hpos alg
    unfold LoadBalancer.removeServer
    simp only [hidx, hgd]
    rw [if_pos ⟨hremne, hpos⟩]
  · intro hcap
    unfold LoadBalancer.removeServer
    simp only [hidx, hgd]
    by_cases hpos : 0 < ss[i].currentLoad
    · rw [if_pos ⟨hremne, hpos⟩]
      have hcons := (LoadBalancer.llLoop_conservation ss[i].currentLoad.toNat
        (ss.eraseIdx i) ss[i].currentLoad (by omega) hloadrem (le_refl _)).1
      have hfull := LoadBalancer.distributeLoadLeastLoaded_full (ss.eraseIdx i)
        ss[i].currentLoad (by omega) hloadrem hcap
      show LoadBalancer.getTotalLoad
          (LoadBalancer.distributeLoadLeastLoaded (ss.eraseIdx i) ss[i].currentLoad).1 =
        LoadBalancer.getTotalLoad ss
      unfold LoadBalancer.distributeLoadLeastLoaded at hfull ⊢
      rw [if_neg hremne] at hfull ⊢
      omega
    · rw [if_neg (by
        rintro ⟨_, h⟩
        exact hpos h)]
      have : ss[i].currentLoad = 0 := by
        have := hload _ (List.getElem_mem hi)
        omega
      show LoadBalancer.getTotalLoad (ss.eraseIdx i) = LoadBalancer.getTotalLoad ss
      omega
  · intro honl
    unfold LoadBalancer.removeServer
    simp only [hidx, hgd]
    by_cases hpos : 0 < ss[i].currentLoad
    · rw [if_pos ⟨hremne, hpos⟩]
      have hcons := LoadBalancer.rr_conservation_online (ss.eraseIdx i)
        ss[i].currentLoad honl hloadrem (by omega)
      have hund := LoadBalancer.rr_undist_online (ss.eraseIdx i) ss[i].currentLoad
        hrem honl
      show LoadBalancer.getTotalLoad
          (LoadBalancer.distributeLoadRoundRobin (ss.eraseIdx i) ss[i].currentLoad).1 =
        LoadBalancer.getTotalLoad ss
      omega
    · rw [if_neg (by
        rintro ⟨_, h⟩
        exact hpos h)]
      have : ss[i].currentLoad = 0 := by
        have := hload _ (List.getElem_mem hi)
        omega
      show LoadBalancer.getTotalLoad (ss.eraseIdx i) = LoadBalancer.getTotalLoad ss
      omega

/-- Witness for C6 (amended) under Least Loaded: removing server 1
(load 4) with server 2 (capacity 100, empty) remaining keeps the total
system load at 4. -/
theorem c6_removal_amended_witness :
    LoadBalancer.getTotalLoad
        (LoadBalancer.removeServer .LEAST_LOADED
          [⟨1, 100, 4, 1, true⟩, ⟨2, 100, 0, 1, true⟩] 1).1 =
      LoadBalancer.getTotalLoad [⟨1, 100, 4, 1, true⟩, ⟨2, 100, 0, 1, true⟩] :=
  (c6_removal_amended [⟨1, 100, 4, 1, true⟩, ⟨2, 100, 0, 1, true⟩] 1 0
    (by decide) (by decide) (by decide) (by decide)).2.1 (by decide)

theorem int_list_sum_nonneg : ∀ {l : List Int}, (∀ x ∈ l, 0 ≤ x) → 0 ≤ l.sum := by
  intro l
  induction l with
  | nil => intro _; simp
  | cons x xs ih =>
    intro h
    rw [List.sum_cons]
    have hx := h x (by simp)
    have hxs := ih (fun y hy => h y (by simp [hy]))
    omega

namespace LoadBalancer

/-- Rebuilding a load-zeroed server from its frame: `setCurrentLoad 0`
factors through `serverFrame`, so equal frames give equal zeroed servers. -/
def frameToZero (f : Int × Int × Rat × Bool) : Server :=
  ⟨f.1, f.2.1, 0, f.2.2.1, f.2.2.2⟩

theorem setCurrentLoad_zero_eq (s : Server) :
    s.setCurrentLoad 0 = frameToZero (serverFrame s) := by
  simp [Server.setCurrentLoad, frameToZero, serverFrame]

theorem zeroed_eq_of_frame_eq (a b : List Server)
    (h : a.map serverFrame = b.map serverFrame) :
    a.map (fun s => s.setCurrentLoad 0) = b.map (fun s => s.setCurrentLoad 0) := by
  have ha : a.map (fun s => s.setCurrentLoad 0) = a.map (frameToZero ∘ serverFrame) :=
    List.map_congr_left (fun s _ => setCurrentLoad_zero_eq s)
  have hb : b.map (fun s => s.setCurrentLoad 0) = b.map (frameToZero ∘ serverFrame) :=
    List.map_congr_left (fun s _ => setCurrentLoad_zero_eq s)
  rw [ha, hb, ← List.map_map, ← List.map_map, h]

theorem zeroed_idem (a : List Server) :
    (a.map (fun s => s.setCurrentLoad 0)).map (fun s => s.setCurrentLoad 0) =
      a.map (fun s => s.setCurrentLoad 0) := by
  rw [List.map_map]
  exact List.map_congr_left (fun s _ => by simp [Server.setCurrentLoad])

theorem getTotalLoad_zeroed (ss : List Server) :
    getTotalLoad (ss.map (fun s => s.setCurrentLoad 0)) = 0 := by
  unfold getTotalLoad
  rw [List.map_map]
  apply List.sum_eq_zero
  intro x hx
  simp only [List.mem_map] at hx
  obtain ⟨s, _, rfl⟩ := hx
  simp [Server.setCurrentLoad]

theorem sumAvailable_zeroed (ss : List Server) :
    sumAvailable (ss.map (fun s => s.setCurrentLoad 0)) = getTotalCapacity ss := by
  unfold sumAvailable getTotalCapacity
  rw [List.map_map]
  congr 1
  apply List.map_congr_left
  intro s _
  simp only [Function.comp_apply, Server.getAvailableCapacity, Server.setCurrentLoad]
  cases hon : s.online <;> simp [hon]

theorem totalEffectiveCapacity_zeroed (ss : List Server) :
    totalEffectiveCapacity (ss.map (fun s => s.setCurrentLoad 0)) =
      totalEffectiveCapacity ss := by
  unfold totalEffectiveCapacity
  rw [List.map_map]
  congr 1

theorem rr_frame (ss : List Server) (L : Int) :
    ((distributeLoadRoundRobin ss L).1).map serverFrame = ss.map serverFrame := by
  unfold distributeLoadRoundRobin
  split
  · rfl
  · cases hfind : ss.findIdx? (·.online) with
    | none => rfl
    | some startIdx =>
      exact rr_fold_frame startIdx ss.length (Int.tdiv L (ss.length : Int))
        (List.range ss.length) (ss, Int.tmod L (ss.length : Int))

theorem ll_frame (ss : List Server) (L : Int) :
    ((distributeLoadLeastLoaded ss L).1).map serverFrame = ss.map serverFrame := by
  unfold distributeLoadLeastLoaded
  split
  · rfl
  · exact llLoop_frame L.toNat ss L

theorem addSystemLoad_frame (alg : BalancingAlgorithm) (ss : List Server) (L : Int) :
    ((addSystemLoad alg ss L).1).map serverFrame = ss.map serverFrame := by
  cases alg
  · exact rr_frame ss L
  · exact ll_frame ss L
  · exact wo_frame ss L

end LoadBalancer

namespace LoadBalancer

theorem rebalance_zeroed_eq (alg : BalancingAlgorithm) (ss : List Server) :
    ((addSystemLoad alg (ss.map (fun s => s.setCurrentLoad 0)) (getTotalLoad ss)).1).map
        (fun s => s.setCurrentLoad 0) =
      ss.map (fun s => s.setCurrentLoad 0) := by
  have h2 := zeroed_eq_of_frame_eq _ _
    (addSystemLoad_frame alg (ss.map (fun s => s.setCurrentLoad 0)) (getTotalLoad ss))
  rw [h2]
  exact zeroed_idem ss

theorem rebalance_total_eq (alg : BalancingAlgorithm) (ss : List Server)
    (hne : ss.isEmpty = false)
    (hload : ∀ s ∈ ss, 0 ≤ s.currentLoad)
    (hcap : ∀ s ∈ ss, 0 ≤ s.capacity)
    (hmult : ∀ s ∈ ss, 0 ≤ s.performanceMultiplier)
    (hfit : getTotalLoad ss ≤ getTotalCapacity ss)
    (halg : match alg with
      | .ROUND_ROBIN => ∀ s ∈ ss, s.online = true
      | .LEAST_LOADED => True
      | .WEIGHTED_OPTIMIZATION => 0 < totalEffectiveCapacity ss) :
    getTotalLoad (addSystemLoad alg (ss.map (fun s => s.setCurrentLoad 0))
        (getTotalLoad ss)).1 = getTotalLoad ss := by
  have hT0 : 0 ≤ getTotalLoad ss :=
    int_list_sum_nonneg (by
      intro x hx
      simp only [List.mem_map] at hx
      obtain ⟨s, hs, rfl⟩ := hx
      exact hload s hs)
  have hload0 : ∀ s ∈ ss.map (fun s => s.setCurrentLoad 0), 0 ≤ s.currentLoad := by
    intro s hs
    simp only [List.mem_map] at hs
    obtain ⟨u, _, rfl⟩ := hs
    simp [Server.setCurrentLoad]
  have hz : getTotalLoad (ss.map (fun s => s.setCurrentLoad 0)) = 0 := getTotalLoad_zeroed ss
  have havail : sumAvailable (ss.map (fun s => s.setCurrentLoad 0)) = getTotalCapacity ss :=
    sumAvailable_zeroed ss
  have hne0 : (ss.map (fun s => s.setCurrentLoad 0)).isEmpty = false := by
    cases ss with
    | nil => simp at hne
    | cons a l => rfl
  cases alg with
  | ROUND_ROBIN =>
    have honl0 : ∀ s ∈ ss.map (fun s => s.setCurrentLoad 0), s.online = true := by
      intro s hs
      simp only [List.mem_map] at hs
      obtain ⟨u, hu, rfl⟩ := hs
      exact halg u hu
    have hcons := rr_conservation_online (ss.map (fun s => s.setCurrentLoad 0))
      (getTotalLoad ss) honl0 hload0 hT0
    have hund := rr_undist_online (ss.map (fun s => s.setCurrentLoad 0))
      (getTotalLoad ss) hne0 honl0
    show getTotalLoad
        (distributeLoadRoundRobin (ss.map (fun s => s.setCurrentLoad 0)) (getTotalLoad ss)).1 =
      getTotalLoad ss
    omega
  | LEAST_LOADED =>
    have hcons := (llLoop_conservation (getTotalLoad ss).toNat
      (ss.map (fun s => s.setCurrentLoad 0)) (getTotalLoad ss) hT0 hload0 (le_refl _)).1
    have hfull := llLoop_full (getTotalLoad ss).toNat
      (ss.map (fun s => s.setCurrentLoad 0)) (getTotalLoad ss) hT0 hload0 (by omega) (le_refl _)
    show getTotalLoad
        (distributeLoadLeastLoaded (ss.map (fun s => s.setCurrentLoad 0)) (getTotalLoad ss)).1 =
      getTotalLoad ss
    unfold distributeLoadLeastLoaded
    rw [if_neg (by rw [hne0]; exact Bool.false_ne_true)]
    omega
  | WEIGHTED_OPTIMIZATION =>
    have hcap0 : ∀ s ∈ ss.map (fun s => s.setCurrentLoad 0),
        s.online = true → s.currentLoad ≤ s.capacity := by
      intro s hs _
      simp only [List.mem_map] at hs
      obtain ⟨u, hu, rfl⟩ := hs
      simpa [Server.setCurrentLoad] using hcap u hu
    have hmult0 : ∀ s ∈ ss.map (fun s => s.setCurrentLoad 0),
        0 ≤ s.performanceMultiplier := by
      intro s hs
      simp only [List.mem_map] at hs
      obtain ⟨u, hu, rfl⟩ := hs
      exact hmult u hu
    have htot0 : 0 < totalEffectiveCapacity (ss.map (fun s => s.setCurrentLoad 0)) := by
      rw [totalEffectiveCapacity_zeroed]
      exact halg
    have hcons := wo_conservation (ss.map (fun s => s.setCurrentLoad 0))
      (getTotalLoad ss) hT0 hload0 hcap0 hmult0
    have hfull := wo_full (ss.map (fun s => s.setCurrentLoad 0))
      (getTotalLoad ss) hT0 hload0 hcap0 hmult0 (by omega) htot0
    show getTotalLoad
        (distributeLoadWeightedOptimization (ss.map (fun s => s.setCurrentLoad 0))
          (getTotalLoad ss)).1 =
      getTotalLoad ss
    omega

end LoadBalancer

/-- Claim C5 (amended): rebalance is idempotent provided the replayed total
can actually be fully re-distributed: over a non-empty server set with
non-negative loads, capacities and performance multipliers whose total load
fits within the total (online) capacity, and with the per-policy side
condition that the code needs (Round Robin: every server online; Weighted
Optimization: positive total effective capacity; Least Loaded: nothing),
a second rebalance reproduces exactly the state left by the first.  Without
these conditions part of the replayed load can be dropped or left
undistributed, changing the totals — see the counterexample. -/
theorem c5_idempotence_amended (alg : BalancingAlgorithm) (ss : List Server)
    (hne : ss.isEmpty = false)
    (hload : ∀ s ∈ ss, 0 ≤ s.currentLoad)
    (hcap : ∀ s ∈ ss, 0 ≤ s.capacity)
    (hmult : ∀ s ∈ ss, 0 ≤ s.performanceMultiplier)
    (hfit : LoadBalancer.getTotalLoad ss ≤ LoadBalancer.getTotalCapacity ss)
    (halg : match alg with
      | .ROUND_ROBIN => ∀ s ∈ ss, s.online = true
      | .LEAST_LOADED => True
      | .WEIGHTED_OPTIMIZATION => 0 < LoadBalancer.totalEffectiveCapacity ss) :
    LoadBalancer.rebalanceLoads alg (LoadBalancer.rebalanceLoads alg ss) =
      LoadBalancer.rebalanceLoads alg ss := by
  have hre : ∀ t : List Server, LoadBalancer.rebalanceLoads alg t =
      (LoadBalancer.addSystemLoad alg (t.map (fun s => s.setCurrentLoad 0))
        (LoadBalancer.getTotalLoad t)).1 := fun t => rfl
  rw [hre (LoadBalancer.rebalanceLoads alg ss), hre ss,
    LoadBalancer.rebalance_zeroed_eq alg ss,
    LoadBalancer.rebalance_total_eq alg ss hne hload hcap hmult hfit halg]

/-- Witness for C5 (amended): two servers of capacity 10 holding loads 4
and 0 under Least Loaded; the second rebalance reproduces the state after
the first. -/
theorem c5_idempotence_amended_witness :
    LoadBalancer.rebalanceLoads .LEAST_LOADED
        (LoadBalancer.rebalanceLoads .LEAST_LOADED
          [⟨1, 10, 4, 1, true⟩, ⟨2, 10, 0, 1, true⟩]) =
      LoadBalancer.rebalanceLoads .LEAST_LOADED [⟨1, 10, 4, 1, true⟩, ⟨2, 10, 0, 1, true⟩] :=
  c5_idempotence_amended .LEAST_LOADED [⟨1, 10, 4, 1, true⟩, ⟨2, 10, 0, 1, true⟩]
    (by decide) (by decide) (by decide) (by decide) (by decide) trivial

/-- Common input for comparing the two Weighted-Optimization formulations:
from a pair `p` of a positive capacity `p.1` and its expected integral
proportional share `p.2`, the server of the main balancer (no load, unit
multiplier, online). -/
def mkWoServer (p : Int × Int) : Server :=
  ⟨0, p.1, 0, 1, true⟩

/-- The corresponding server of the stand-alone simulator. -/
def mkSimServer (p : Int × Int) : Sim.Server :=
  ⟨0, (p.1 : Rat), 0⟩

namespace LoadBalancer

theorem totEff_mk (ps : List (Int × Int)) :
    totalEffectiveCapacity (ps.map mkWoServer) = (((ps.map (·.1)).sum : Int) : Rat) := by
  unfold totalEffectiveCapacity
  rw [List.map_map, Int.cast_list_sum, List.map_map]
  refine congrArg List.sum (List.map_congr_left ?_)
  intro p _
  simp [mkWoServer, Server.getEffectiveCapacity]

theorem c_sum_eq (ps : List (Int × Int)) (L : Int) (hL : 0 < L)
    (hLle : L ≤ (ps.map (·.1)).sum)
    (hdiv : ∀ p ∈ ps, p.2 * (ps.map (·.1)).sum = p.1 * L) :
    (ps.map (·.2)).sum = L := by
  have hT : 0 < (ps.map (·.1)).sum := lt_of_lt_of_le hL hLle
  have h1 : (ps.map (fun p => p.2 * (ps.map (·.1)).sum)).sum =
      (ps.map (fun p => p.1 * L)).sum :=
    congrArg List.sum (List.map_congr_left (fun p hp => hdiv p hp))
  rw [List.sum_map_mul_right, List.sum_map_mul_right] at h1
  rw [mul_comm ((ps.map (·.1)).sum) L] at h1
  exact mul_right_cancel₀ (by omega) h1

theorem c_pos (ps : List (Int × Int)) (L : Int) (hL : 0 < L)
    (hLle : L ≤ (ps.map (·.1)).sum)
    (hdiv : ∀ p ∈ ps, p.2 * (ps.map (·.1)).sum = p.1 * L)
    (hpos : ∀ p ∈ ps, 0 < p.1) :
    ∀ p ∈ ps, 0 < p.2 := by
  intro p hp
  have hT : 0 < (ps.map (·.1)).sum := lt_of_lt_of_le hL hLle
  have hd := hdiv p hp
  have hc := hpos p hp
  nlinarith [mul_pos hc hL]

theorem c_le_cap (ps : List (Int × Int)) (L : Int) (hL : 0 < L)
    (hLle : L ≤ (ps.map (·.1)).sum)
    (hdiv : ∀ p ∈ ps, p.2 * (ps.map (·.1)).sum = p.1 * L)
    (hpos : ∀ p ∈ ps, 0 < p.1) :
    ∀ p ∈ ps, p.2 ≤ p.1 := by
  intro p hp
  have hT : 0 < (ps.map (·.1)).sum := lt_of_lt_of_le hL hLle
  have hd := hdiv p hp
  have hc := hpos p hp
  nlinarith [mul_nonneg (le_of_lt hc) (sub_nonneg.mpr hLle)]

theorem c_rat (ps : List (Int × Int)) (L : Int) (hL : 0 < L)
    (hLle : L ≤ (ps.map (·.1)).sum)
    (hdiv : ∀ p ∈ ps, p.2 * (ps.map (·.1)).sum = p.1 * L) :
    ∀ p ∈ ps,
      ((p.1 : Int) : Rat) / (((ps.map (·.1)).sum : Int) : Rat) * ((L : Int) : Rat) =
        ((p.2 : Int) : Rat) := by
  intro p hp
  have hT : 0 < (ps.map (·.1)).sum := lt_of_lt_of_le hL hLle
  have hTne : (((ps.map (·.1)).sum : Int) : Rat) ≠ 0 := by
    exact_mod_cast (by omega : ((ps.map (·.1)).sum : Int) ≠ 0)
  have hd : ((p.2 : Int) : Rat) * (((ps.map (·.1)).sum : Int) : Rat) =
      ((p.1 : Int) : Rat) * ((L : Int) : Rat) := by
    exact_mod_cast hdiv p hp
  rw [div_mul_eq_mul_div, div_eq_iff hTne]
  linarith [hd]

end LoadBalancer

namespace LoadBalancer

theorem woIdealLoads_mk (ps : List (Int × Int)) (L : Int) (hL : 0 < L)
    (hLle : L ≤ (ps.map (·.1)).sum)
    (hdiv : ∀ p ∈ ps, p.2 * (ps.map (·.1)).sum = p.1 * L)
    (hpos : ∀ p ∈ ps, 0 < p.1) :
    woIdealLoads (ps.map mkWoServer) L = ps.map (·.2) := by
  unfold woIdealLoads
  rw [List.map_map]
  apply List.map_congr_left
  intro p hp
  have hceq := c_rat ps L hL hLle hdiv p hp
  have hle := c_le_cap ps L hL hLle hdiv hpos p hp
  simp only [Function.comp_apply, mkWoServer, Server.getEffectiveCapacity,
    Server.getAvailableCapacity, totEff_mk]
  simp only [Bool.not_true, Bool.false_eq_true, if_false, mul_one, sub_zero]
  rw [hceq, ratTrunc_intCast, if_neg (not_lt.mpr hle)]

end LoadBalancer

namespace LoadBalancer

theorem wo_mk_loads (ps : List (Int × Int)) (L : Int) (hne : ps ≠ [])
    (hpos : ∀ p ∈ ps, 0 < p.1) (hL : 0 < L)
    (hLle : L ≤ (ps.map (·.1)).sum)
    (hdiv : ∀ p ∈ ps, p.2 * (ps.map (·.1)).sum = p.1 * L) :
    (distributeLoadWeightedOptimization (ps.map mkWoServer) L).1.map
        (fun s => s.currentLoad) = ps.map (·.2) := by
  have hT : 0 < (ps.map (·.1)).sum := lt_of_lt_of_le hL hLle
  have hemp : (ps.map mkWoServer).isEmpty = false := by
    cases ps with
    | nil => exact absurd rfl hne
    | cons a l => rfl
  unfold distributeLoadWeightedOptimization
  rw [if_neg (by rw [hemp]; exact Bool.false_ne_true)]
  rw [if_neg (by
    rw [totEff_mk]
    push_neg
    exact_mod_cast hT)]
  simp only [woIdealLoads_mk ps L hL hLle hdiv hpos, c_sum_eq ps L hL hLle hdiv, sub_self,
    Int.toNat_zero]
  simp only [woLoop, List.zipWith_map, List.zipWith_same, List.map_map]
  apply List.map_congr_left
  intro p hp
  have hcp := c_pos ps L hL hLle hdiv hpos p hp
  simp only [Function.comp_apply, if_pos hcp, mkWoServer, Server.setCurrentLoad, zero_add]
  rw [if_neg (by omega)]

end LoadBalancer

theorem sim_opt_loads (ps : List (Int × Int)) (L : Int) (hne : ps ≠ [])
    (hpos : ∀ p ∈ ps, 0 < p.1) (hL : 0 < L)
    (hLle : L ≤ (ps.map (·.1)).sum)
    (hdiv : ∀ p ∈ ps, p.2 * (ps.map (·.1)).sum = p.1 * L) :
    (Sim.LoadBalancer.distributeLoadOptimization (ps.map mkSimServer) ((L : Int) : Rat)).map
        (fun s => s.currentLoad) = ps.map (fun p => ((p.2 : Int) : Rat)) := by
  have hT : 0 < (ps.map (·.1)).sum := lt_of_lt_of_le hL hLle
  have hemp : (ps.map mkSimServer).isEmpty = false := by
    cases ps with
    | nil => exact absurd rfl hne
    | cons a l => rfl
  unfold Sim.LoadBalancer.distributeLoadOptimization
  rw [if_neg (by rw [hemp]; exact Bool.false_ne_true)]
  have hLrat : (0 : Rat) < ((L : Int) : Rat) := by exact_mod_cast hL
  have hcapsum : ((ps.map mkSimServer).map (fun x => x.capacity)).sum =
      (((ps.map (·.1)).sum : Int) : Rat) := by
    rw [List.map_map, Int.cast_list_sum, List.map_map]
    rfl
  have hloadsum : ((ps.map mkSimServer).map (fun x => x.currentLoad)).sum = 0 := by
    rw [List.map_map]
    apply List.sum_eq_zero
    intro x hx
    simp only [List.mem_map] at hx
    obtain ⟨p, _, rfl⟩ := hx
    rfl
  have hdiff : (ps.map mkSimServer).map
        (fun s => (((L : Int) : Rat) / (((ps.map (·.1)).sum : Int) : Rat)) * s.capacity -
          s.currentLoad) =
      ps.map (fun p => ((p.2 : Int) : Rat)) := by
    rw [List.map_map]
    apply List.map_congr_left
    intro p hp
    have hceq := LoadBalancer.c_rat ps L hL hLle hdiv p hp
    simp only [Function.comp_apply, mkSimServer, sub_zero]
    rw [div_mul_eq_mul_div, mul_comm ((L : Rat)) ((p.1 : Rat)), ← div_mul_eq_mul_div, hceq]
  have hpossum : ((ps.map (fun p => ((p.2 : Int) : Rat))).map
        (fun d => if 0 < d then d else 0)).sum = ((L : Int) : Rat) := by
    rw [List.map_map]
    have h1 : ps.map ((fun d => if 0 < d then d else 0) ∘ (fun p => ((p.2 : Int) : Rat))) =
        ps.map (fun p => ((p.2 : Int) : Rat)) := by
      apply List.map_congr_left
      intro p hp
      have hcp := LoadBalancer.c_pos ps L hL hLle hdiv hpos p hp
      simp only [Function.comp_apply]
      rw [if_pos (by exact_mod_cast hcp)]
    rw [h1,
      show ((L : Int) : Rat) = (((ps.map (·.2)).sum : Int) : Rat) from by
        rw [LoadBalancer.c_sum_eq ps L hL hLle hdiv],
      Int.cast_list_sum, List.map_map]
    rfl
  simp only [hcapsum, hloadsum, zero_add, hdiff, hpossum, if_pos hLrat]
  simp only [List.zipWith_map, List.zipWith_same, List.map_map]
  apply List.map_congr_left
  intro p hp
  have hcp := LoadBalancer.c_pos ps L hL hLle hdiv hpos p hp
  have hcprat : (0 : Rat) < ((p.2 : Int) : Rat) := by exact_mod_cast hcp
  simp only [Function.comp_apply, if_pos hcprat, mkSimServer, zero_add]
  rw [mul_comm, div_mul_cancel₀]
  exact ne_of_gt hLrat

/-- Claim C4 (amended): the two Weighted-Optimization formulations agree
exactly when the proportional shares are integral: over servers of positive
capacities with no initial load, unit performance multipliers, all online,
and a load `0 < L` at most the total capacity such that every server's
proportional share `capacity*L/totalCapacity` is an integer (`p.2`, with
`p.2 * total = p.1 * L`), the member-function formulation
(effective-capacity shares, truncated and capped, remainder loop) and the
stand-alone simulator formulation (target-utilization positive-difference
allocation) leave every server with exactly that share, hence identical
per-server end loads.  With non-integral shares the truncation in the
member function makes the end states differ — see the counterexample. -/
theorem c4_equivalence_amended (ps : List (Int × Int)) (L : Int)
    (hne : ps ≠ [])
    (hpos : ∀ p ∈ ps, 0 < p.1)
    (hL : 0 < L)
    (hLle : L ≤ (ps.map (·.1)).sum)
    (hdiv : ∀ p ∈ ps, p.2 * (ps.map (·.1)).sum = p.1 * L) :
    ((LoadBalancer.distributeLoadWeightedOptimization (ps.map mkWoServer) L).1.map
        (fun s => (s.currentLoad : Rat))) =
      (Sim.LoadBalancer.distributeLoadOptimization (ps.map mkSimServer) ((L : Int) : Rat)).map
        (fun s => s.currentLoad) := by
  have h2 := LoadBalancer.wo_mk_loads ps L hne hpos hL hLle hdiv
  have h1 := sim_opt_loads ps L hne hpos hL hLle hdiv
  rw [h1]
  have h3 : (LoadBalancer.distributeLoadWeightedOptimization (ps.map mkWoServer) L).1.map
        (fun s => (s.currentLoad : Rat)) =
      ((LoadBalancer.distributeLoadWeightedOptimization (ps.map mkWoServer) L).1.map
        (fun s => s.currentLoad)).map (fun i => ((i : Int) : Rat)) := by
    rw [List.map_map]
    rfl
  rw [h3, h2, List.map_map]
  rfl

/-- Witness for C4 (amended): capacities 1 and 3, load 4 — shares 1 and 3
are integral and both formulations end with loads (1, 3). -/
theorem c4_equivalence_amended_witness :
    ((LoadBalancer.distributeLoadWeightedOptimization
        ([((1 : Int), (1 : Int)), (3, 3)].map mkWoServer) 4).1.map
          (fun s => (s.currentLoad : Rat))) =
      (Sim.LoadBalancer.distributeLoadOptimization
        ([((1 : Int), (1 : Int)), (3, 3)].map mkSimServer) (((4 : Int) : Int) : Rat)).map
          (fun s => s.currentLoad) :=
  c4_equivalence_amended [(1, 1), (3, 3)] 4 (by decide) (by decide) (by decide) (by decide)
    (by decide)
